import Mathlib

/-!
Verification of the code-review backend's LLM response contract and
validation layer (`src/backend/app/llm.py`, `src/backend/app/main.py`).

The Python code is shallowly embedded: JSON values (Python parsed-JSON
objects) are the inductive `JVal`; `json.dumps` / `json.loads` are modelled
by `serJ` / `pyLoads` (JSON numbers are modelled as integers, which covers
every value the claims quantify over); the two regex searches of
`_extract_json_from_text` are modelled by `findFenced` / `findRawObj`,
written out as the deterministic leftmost-search matching functions the
regexes denote; exceptions are explicit `Except` errors.
-/

/-! ## Character and list utilities -/

def isWsChar (c : Char) : Bool :=
  c == ' ' || c == '\t' || c == '\n' || c == '\r'

def skipWs (l : List Char) : List Char := l.dropWhile isWsChar

/-- Does `s` start with the pattern `pat`? -/
def startsWithL : List Char → List Char → Bool
  | [], _ => true
  | _ :: _, [] => false
  | p :: ps, c :: cs => p == c && startsWithL ps cs

/-- Python's substring containment test `pat in s`. -/
def containsSub (pat : List Char) : List Char → Bool
  | [] => startsWithL pat []
  | c :: cs => startsWithL pat (c :: cs) || containsSub pat cs

def isDigitCh (c : Char) : Bool := 48 ≤ c.toNat && c.toNat ≤ 57

def isAsciiAlpha (c : Char) : Bool :=
  (65 ≤ c.toNat && c.toNat ≤ 90) || (97 ≤ c.toNat && c.toNat ≤ 122)

def digitChar (d : Nat) : Char := Char.ofNat (48 + d)

/-- Decimal digits of a natural number (fuelled so that it is structural
and hence kernel-reducible). -/
def natCharsAux : Nat → Nat → List Char
  | 0, _ => []
  | fuel + 1, n =>
    if n < 10 then [digitChar n]
    else natCharsAux fuel (n / 10) ++ [digitChar (n % 10)]

def natChars (n : Nat) : List Char := natCharsAux (n + 1) n

/-- Decimal rendering of an integer, as Python's `str` / `json.dumps` print it. -/
def intChars (n : Int) : List Char :=
  if n < 0 then '-' :: natChars n.natAbs else natChars n.toNat

/-- Split at newline characters, as Python's `"...".split('\n')`. -/
def splitNl : List Char → List (List Char)
  | [] => [[]]
  | '\n' :: cs => [] :: splitNl cs
  | c :: cs =>
    match splitNl cs with
    | [] => [[c]]
    | h :: t => (c :: h) :: t

/-- Python `str.strip()`: drop whitespace from both ends. -/
def stripEnds (l : List Char) : List Char :=
  ((l.dropWhile isWsChar).reverse.dropWhile isWsChar).reverse

/-! ## JSON values (the result of Python's `json.loads`) -/

inductive JVal where
  | null : JVal
  | bool (b : Bool) : JVal
  | int (n : Int) : JVal
  | str (s : String) : JVal
  | arr (elems : List JVal) : JVal
  | obj (fields : List (String × JVal)) : JVal

mutual
/-- Python `==` on parsed-JSON values. -/
def beqJ : JVal → JVal → Bool
  | .null, .null => true
  | .bool a, .bool b => a == b
  | .int a, .int b => a == b
  | .str a, .str b => a == b
  | .arr a, .arr b => beqElems a b
  | .obj a, .obj b => beqFields a b
  | _, _ => false
termination_by structural v => v

def beqElems : List JVal → List JVal → Bool
  | [], [] => true
  | a :: as_, b :: bs => beqJ a b && beqElems as_ bs
  | _, _ => false
termination_by structural l => l

def beqFields : List (String × JVal) → List (String × JVal) → Bool
  | [], [] => true
  | (k, a) :: as_, (k2, b) :: bs => k == k2 && beqJ a b && beqFields as_ bs
  | _, _ => false
termination_by structural l => l
end

/-- Python truthiness of a parsed-JSON value. -/
def pyTruthy : JVal → Bool
  | .null => false
  | .bool b => b
  | .int n => n != 0
  | .str s => s.toList != []
  | .arr es => !es.isEmpty
  | .obj fs => !fs.isEmpty

/-- Dict lookup: `d[k]` / `k in d` are over the first matching key
(Python dict keys are unique). -/
def lookupKey : List (String × JVal) → String → Option JVal
  | [], _ => none
  | (k, v) :: fs, key => if k = key then some v else lookupKey fs key

def hasKey (fs : List (String × JVal)) (key : String) : Bool :=
  (lookupKey fs key).isSome

/-- Python `d.get(key, dflt)`. -/
def lookupD (fs : List (String × JVal)) (key : String) (dflt : JVal) : JVal :=
  (lookupKey fs key).getD dflt

/-- In-place dict update `d[k] = v` (the key is already present). -/
def setKey (fs : List (String × JVal)) (key : String) (v : JVal) :
    List (String × JVal) :=
  fs.map fun kv => if kv.1 = key then (kv.1, v) else kv

/-- The backtick and single-quote characters (named, code points 96 and 39). -/
def tickCh : Char := Char.ofNat 96

def squoteCh : Char := Char.ofNat 39

/-- Escaping inside Python `repr` of a string (model). -/
def reprEsc (c : Char) : List Char :=
  if c = '\\' then ['\\', '\\']
  else if c = squoteCh then ['\\', squoteCh]
  else if c = '\n' then ['\\', 'n']
  else if c = '\t' then ['\\', 't']
  else if c = '\r' then ['\\', 'r']
  else [c]

mutual
/-- Python `repr` of a parsed-JSON value (model: single-quoted strings,
`None` / `True` / `False` literals, bracketed containers). -/
def pyReprOf : JVal → List Char
  | .null => "None".toList
  | .bool true => "True".toList
  | .bool false => "False".toList
  | .int n => intChars n
  | .str s => squoteCh :: s.toList.flatMap reprEsc ++ [squoteCh]
  | .arr es => '[' :: reprElems es ++ [']']
  | .obj fs => '{' :: reprFields fs ++ ['}']
termination_by structural v => v

def reprElems : List JVal → List Char
  | [] => []
  | [v] => pyReprOf v
  | v :: w :: vs => pyReprOf v ++ ',' :: ' ' :: reprElems (w :: vs)
termination_by structural l => l

def reprFields : List (String × JVal) → List Char
  | [] => []
  | [(k, v)] => squoteCh :: k.toList.flatMap reprEsc ++ squoteCh :: ':' :: ' ' :: pyReprOf v
  | (k, v) :: f :: fs =>
    squoteCh :: k.toList.flatMap reprEsc ++ squoteCh :: ':' :: ' ' :: pyReprOf v
      ++ ',' :: ' ' :: reprFields (f :: fs)
termination_by structural l => l
end

/-- Python `str()` of a parsed-JSON value: strings unchanged, `None`,
`True`/`False`, decimal integers, containers via their `repr`. -/
def pyStrOf : JVal → String
  | .str s => s
  | v => String.mk (pyReprOf v)

/-- Python `int()` applied to a parsed-JSON value: `none` models the
`TypeError` / `ValueError` the coercion raises. -/
def pyIntOf : JVal → Option Int
  | .bool b => some (if b then 1 else 0)
  | .int n => some n
  | .str s =>
    let t := stripEnds s.toList
    match t with
    | '-' :: ds => if ds ≠ [] ∧ ds.all isDigitCh then
        some (-(ds.foldl (fun a c => a * 10 + (c.toNat - 48)) 0 : Nat)) else none
    | '+' :: ds => if ds ≠ [] ∧ ds.all isDigitCh then
        some ((ds.foldl (fun a c => a * 10 + (c.toNat - 48)) 0 : Nat)) else none
    | ds => if ds ≠ [] ∧ ds.all isDigitCh then
        some ((ds.foldl (fun a c => a * 10 + (c.toNat - 48)) 0 : Nat)) else none
  | _ => none

/-- Python `list()` applied to a parsed-JSON value: lists stay, strings
become their characters, dicts their keys; `none` models `TypeError`
for non-iterables. -/
def pyListOf : JVal → Option (List JVal)
  | .arr es => some es
  | .str s => some (s.toList.map fun c => .str (String.mk [c]))
  | .obj fs => some (fs.map fun kv => .str kv.1)
  | _ => none

/-! ## `json.dumps` model (default separators `", "` and `": "`) -/

def escChar (c : Char) : List Char :=
  if c = '"' then ['\\', '"']
  else if c = '\\' then ['\\', '\\']
  else if c = '\n' then ['\\', 'n']
  else if c = '\t' then ['\\', 't']
  else if c = '\r' then ['\\', 'r']
  else [c]

def escChars (l : List Char) : List Char := l.flatMap escChar

mutual
/-- The serialization `json.dumps` would produce (default separators). -/
def serJ : JVal → List Char
  | .null => "null".toList
  | .bool true => "true".toList
  | .bool false => "false".toList
  | .int n => intChars n
  | .str s => '"' :: escChars s.toList ++ ['"']
  | .arr es => '[' :: serElems es ++ [']']
  | .obj fs => '{' :: serFields fs ++ ['}']
termination_by structural v => v

def serElems : List JVal → List Char
  | [] => []
  | [v] => serJ v
  | v :: w :: vs => serJ v ++ ',' :: ' ' :: serElems (w :: vs)
termination_by structural l => l

def serFields : List (String × JVal) → List Char
  | [] => []
  | [(k, v)] => '"' :: escChars k.toList ++ '"' :: ':' :: ' ' :: serJ v
  | (k, v) :: f :: fs =>
    '"' :: escChars k.toList ++ '"' :: ':' :: ' ' :: serJ v
      ++ ',' :: ' ' :: serFields (f :: fs)
termination_by structural l => l
end

mutual
/-- Structure depth-size: an upper bound on the parser fuel a value needs. -/
def sizeJ : JVal → Nat
  | .null => 1
  | .bool _ => 1
  | .int _ => 1
  | .str _ => 1
  | .arr es => 1 + sizeElems es
  | .obj fs => 1 + sizeFields fs
termination_by structural v => v

def sizeElems : List JVal → Nat
  | [] => 0
  | v :: vs => 1 + max (sizeJ v) (sizeElems vs)
termination_by structural l => l

def sizeFields : List (String × JVal) → Nat
  | [] => 0
  | (_, v) :: fs => 1 + max (sizeJ v) (sizeFields fs)
termination_by structural l => l
end

/-! ## `json.loads` model (strict: the whole text must be one JSON value) -/

def unescCh (c : Char) : Option Char :=
  if c = '"' then some '"'
  else if c = '\\' then some '\\'
  else if c = '/' then some '/'
  else if c = 'n' then some '\n'
  else if c = 't' then some '\t'
  else if c = 'r' then some '\r'
  else if c = 'b' then some (Char.ofNat 8)
  else if c = 'f' then some (Char.ofNat 12)
  else none

/-- Parse a string body up to the closing quote; returns content and rest. -/
def parseStrBody : List Char → Option (List Char × List Char)
  | [] => none
  | c :: cs =>
    if c = '\\' then
      match cs with
      | [] => none
      | e :: cs2 =>
        (unescCh e).bind fun u =>
          (parseStrBody cs2).map fun p => (u :: p.1, p.2)
    else if c = '"' then some ([], cs)
    else (parseStrBody cs).map fun p => (c :: p.1, p.2)
termination_by structural l => l

/-- Consume a maximal run of decimal digits, accumulating their value. -/
def grabDigits : List Char → Nat → Nat × List Char
  | [], acc => (acc, [])
  | c :: cs, acc =>
    if isDigitCh c then grabDigits cs (acc * 10 + (c.toNat - 48))
    else (acc, c :: cs)

mutual
def parseVal : Nat → List Char → Option (JVal × List Char)
  | 0, _ => none
  | fuel + 1, s =>
    match skipWs s with
    | [] => none
    | c :: cs =>
      if c = '{' then
        let s2 := skipWs cs
        if s2.head? = some '}' then some (.obj [], s2.tail)
        else (parseFieldsF fuel s2).map fun p => (.obj p.1, p.2)
      else if c = '[' then
        let s2 := skipWs cs
        if s2.head? = some ']' then some (.arr [], s2.tail)
        else (parseElemsF fuel s2).map fun p => (.arr p.1, p.2)
      else if c = '"' then
        (parseStrBody cs).map fun p => (.str (String.mk p.1), p.2)
      else if c = 't' then
        if startsWithL ['r', 'u', 'e'] cs then some (.bool true, cs.drop 3) else none
      else if c = 'f' then
        if startsWithL ['a', 'l', 's', 'e'] cs then some (.bool false, cs.drop 4) else none
      else if c = 'n' then
        if startsWithL ['u', 'l', 'l'] cs then some (.null, cs.drop 3) else none
      else if c = '-' then
        match cs with
        | d :: _ =>
          if isDigitCh d then
            let p := grabDigits cs 0
            some (.int (-(p.1 : Int)), p.2)
          else none
        | [] => none
      else if isDigitCh c then
        let p := grabDigits (c :: cs) 0
        some (.int (p.1 : Int), p.2)
      else none
termination_by structural fuel => fuel

def parseElemsF : Nat → List Char → Option (List JVal × List Char)
  | 0, _ => none
  | fuel + 1, s =>
    (parseVal fuel s).bind fun p =>
      match skipWs p.2 with
      | ',' :: r2 => (parseElemsF fuel r2).map fun q => (p.1 :: q.1, q.2)
      | ']' :: r2 => some ([p.1], r2)
      | _ => none
termination_by structural fuel => fuel

def parseFieldsF : Nat → List Char → Option (List (String × JVal) × List Char)
  | 0, _ => none
  | fuel + 1, s =>
    match skipWs s with
    | '"' :: cs =>
      (parseStrBody cs).bind fun kp =>
        match skipWs kp.2 with
        | ':' :: r2 =>
          (parseVal fuel r2).bind fun vp =>
            match skipWs vp.2 with
            | ',' :: r4 =>
              (parseFieldsF fuel r4).map fun q => ((String.mk kp.1, vp.1) :: q.1, q.2)
            | '}' :: r4 => some ([(String.mk kp.1, vp.1)], r4)
            | _ => none
        | _ => none
    | _ => none
termination_by structural fuel => fuel
end

/-- `json.loads` (model): parse one value, then require only trailing
whitespace; `none` models `json.JSONDecodeError`. -/
def pyLoads (t : List Char) : Option JVal :=
  match parseVal (t.length + 1) t with
  | some (v, rest) => if skipWs rest = [] then some v else none
  | none => none

example : pyLoads ("\x7b\x22a\x22: [1, -2], \x22b\x22: \x22x\x22\x7d".toList)
    = some (.obj [("a", .arr [.int 1, .int (-2)]), ("b", .str "x")]) := rfl

example : serJ (.obj [("a", .arr [.int 1, .int (-2)]), ("b", .str "x")])
    = "\x7b\x22a\x22: [1, -2], \x22b\x22: \x22x\x22\x7d".toList := by decide

/-! ## The two regex searches of `_extract_json_from_text`

The markdown-fence search models `re.search` of the pattern
three backticks, optional tag `json`, whitespace, then the lazy group
open-brace dot-star-lazy close-brace, whitespace, three backticks, with
`re.DOTALL`: leftmost start position wins, the optional tag is tried
greedily, and the lazy group ends at the first close brace whose successor
(after whitespace) is the closing fence. -/

def tickRun : List Char := [tickCh, tickCh, tickCh]

def tagJson : List Char := ['j', 's', 'o', 'n']

/-- Lazy scan for the group's closing brace: the capture ends at the first
close brace followed (after whitespace) by the closing fence. -/
def lazyCapture : List Char → Option (List Char)
  | [] => none
  | c :: cs =>
    if c = '}' && startsWithL tickRun (skipWs cs) then some ['}']
    else (lazyCapture cs).map fun r => c :: r

/-- After the fence opening (and optional tag): greedy whitespace, an open
brace, then the lazily captured body. -/
def fenceBody (s : List Char) : Option (List Char) :=
  match skipWs s with
  | '{' :: cs => (lazyCapture cs).map fun r => '{' :: r
  | _ => none

/-- One match attempt at a fixed start position. -/
def fenceAttempt (s : List Char) : Option (List Char) :=
  if startsWithL tickRun s then
    let s1 := s.drop 3
    match (if startsWithL tagJson s1 then fenceBody (s1.drop 4) else none) with
    | some r => some r
    | none => fenceBody s1
  else none

/-- `re.search` for the fenced-JSON pattern: try every start position from
the left. -/
def findFenced : List Char → Option (List Char)
  | [] => none
  | c :: cs =>
    match fenceAttempt (c :: cs) with
    | some r => some r
    | none => findFenced cs

/-- Split off a maximal run of non-brace characters. -/
def grabNonBrace : List Char → List Char × List Char
  | [] => ([], [])
  | c :: cs =>
    if c = '{' || c = '}' then ([], c :: cs)
    else
      let p := grabNonBrace cs
      (c :: p.1, p.2)

/-- Matcher for the raw-object pattern after its opening brace: non-brace
runs and one level of nested brace pairs, ended by a close brace
(backtracking cannot rescue a failed inner pair, so the greedy scan is
exact). -/
def rawTail : Nat → List Char → Option (List Char)
  | 0, _ => none
  | fuel + 1, s =>
    let p := grabNonBrace s
    match p.2 with
    | '}' :: _ => some (p.1 ++ ['}'])
    | '{' :: r2 =>
      let q := grabNonBrace r2
      match q.2 with
      | '}' :: r4 => (rawTail fuel r4).map fun t => p.1 ++ '{' :: q.1 ++ '}' :: t
      | _ => none
    | _ => none

/-- One raw-object match attempt at a fixed start position. -/
def rawAttempt (s : List Char) : Option (List Char) :=
  match s with
  | '{' :: cs => (rawTail (cs.length + 1) cs).map fun t => '{' :: t
  | _ => none

/-- `re.search` for the raw-object pattern. -/
def findRawObj : List Char → Option (List Char)
  | [] => none
  | c :: cs =>
    match rawAttempt (c :: cs) with
    | some r => some r
    | none => findRawObj cs

/-! ## `_extract_json_from_text` -/

inductive ExtractErr where
  /-- A `json.JSONDecodeError` raised by `json.loads` on a regex group
  (lines 39 and 44 run `json.loads` outside any `try`). -/
  | decodeFail : ExtractErr
  /-- The final `ValueError` carrying the truncated text (line 46). -/
  | unparsable (snippet : List Char) : ExtractErr

def extractJson (text : List Char) : Except ExtractErr JVal :=
  match pyLoads text with
  | some v => .ok v
  | none =>
    match findFenced text with
    | some g =>
      match pyLoads g with
      | some v => .ok v
      | none => .error .decodeFail
    | none =>
      match findRawObj text with
      | some g =>
        match pyLoads g with
        | some v => .ok v
        | none => .error .decodeFail
      | none => .error (.unparsable (text.take 200))

/-! ## `_validate_review_response` -/

inductive VErr where
  /-- The `ValueError` "Response missing required keys" with the missing set. -/
  | schemaMissing (missing : List String) : VErr
  /-- `TypeError` from `list(...)` on a non-iterable suggestions value. -/
  | notIterable : VErr
  /-- `ValueError` / `TypeError` from `int(...)` on a non-coercible score. -/
  | notIntCoercible : VErr

def requiredKeys : List String := ["review", "suggestions", "score"]

/-- `_validate_review_response` (llm.py lines 49-64): presence check over
the three required keys, then in-place normalization of `review` (string
coercion), `suggestions` (`list(...)` if truthy, else `[]`), and `score`
(`int(...)` if truthy, else 5, then clamped by `max(1, min(10, .)))`. -/
def validateReview (result : List (String × JVal)) :
    Except VErr (List (String × JVal)) :=
  if requiredKeys.all (fun k => hasKey result k) then
    match (if pyTruthy (lookupD result "suggestions" .null)
        then pyListOf (lookupD result "suggestions" .null) else some []) with
    | none => .error .notIterable
    | some sug =>
      match (if pyTruthy (lookupD result "score" .null)
          then pyIntOf (lookupD result "score" .null) else some 5) with
      | none => .error .notIntCoercible
      | some sc =>
        .ok (setKey (setKey (setKey result "review"
              (.str (pyStrOf (lookupD result "review" .null))))
              "suggestions" (.arr sug)) "score" (.int (max 1 (min 10 sc))))
  else .error (.schemaMissing (requiredKeys.filter (fun k => !hasKey result k)))

/-! ## Suggestion structuring loop of `get_code_suggestions` (llm.py 249-263) -/

structure Sug where
  text : String
  severity : String
  category : String

/-- Loop body: an object element reads `text` (falling back to the element
itself), `severity` and `category` with string coercion and defaults; any
other element is the legacy bare form. -/
def structureSuggestion : JVal → Sug
  | .obj m =>
    { text := pyStrOf (lookupD m "text" (.obj m))
      severity := pyStrOf (lookupD m "severity" (.str "medium"))
      category := pyStrOf (lookupD m "category" (.str "maintainability")) }
  | v => { text := pyStrOf v, severity := "medium", category := "maintainability" }

def structuredSuggestions (l : List JVal) : List Sug := l.map structureSuggestion

def sugToJ (s : Sug) : JVal :=
  .obj [("text", .str s.text), ("severity", .str s.severity),
        ("category", .str s.category)]

/-! ## Exceptions and the provider gateway (`llm.py` / `main.py`)

`openai` v1 hierarchy: `AuthenticationError`, `RateLimitError` and
`BadRequestError` are `APIStatusError < APIError`; `APIConnectionError`
is also `< APIError`. -/

/-- Structured content of the `ValueError`s the gateway raises. -/
inductive VMsg where
  | noChoices : VMsg
  | emptyResp (finishReason : String) : VMsg
  | couldNotExtract (snippet : List Char) : VMsg
  | invalidJson : VMsg
  | azureApi (origName : String) : VMsg
  | missingKeys (ks : List String) : VMsg
  | badIntCoercion : VMsg
  | notListSugg : VMsg
  | unexpectedWrap (origName : String) : VMsg

inductive PyExc where
  | authErr : PyExc
  | rateErr : PyExc
  | connErr : PyExc
  | badReqErr : PyExc
  | apiErr : PyExc
  | jsonDecodeErr : PyExc
  | valueErr (m : VMsg) : PyExc
  | typeErr : PyExc
  | keyErr : PyExc
  | attrErr : PyExc

/-- `isinstance(e, APIError)` (every provider exception class is a
subclass of `APIError`). -/
def isAPIErrorClass : PyExc → Bool
  | .authErr => true
  | .rateErr => true
  | .connErr => true
  | .badReqErr => true
  | .apiErr => true
  | _ => false

def isValueErrorClass : PyExc → Bool
  | .valueErr _ => true
  | _ => false

def excName : PyExc → String
  | .authErr => "AuthenticationError"
  | .rateErr => "RateLimitError"
  | .connErr => "APIConnectionError"
  | .badReqErr => "BadRequestError"
  | .apiErr => "APIError"
  | .jsonDecodeErr => "JSONDecodeError"
  | .valueErr _ => "ValueError"
  | .typeErr => "TypeError"
  | .keyErr => "KeyError"
  | .attrErr => "AttributeError"

/-- The `except` chain shared by `get_code_review` and
`get_code_suggestions` (llm.py lines 174-181 / 267-274):
`json.JSONDecodeError` becomes a `ValueError`; every
`(BadRequestError, RateLimitError, APIError)` — i.e. every provider
exception — becomes a `ValueError`; any other `ValueError` is re-raised
unchanged, and anything else is wrapped into a `ValueError`. -/
def translateLlm (e : PyExc) : PyExc :=
  match e with
  | .jsonDecodeErr => .valueErr .invalidJson
  | e =>
    if isAPIErrorClass e then .valueErr (.azureApi (excName e))
    else if isValueErrorClass e then e
    else .valueErr (.unexpectedWrap (excName e))

/-- One completion choice of the provider response. -/
structure PChoice where
  content : Option String
  finishReason : String

/-- What the single outbound provider call does: raise, or respond. -/
inductive ProviderOutcome where
  | raise (e : PyExc) : ProviderOutcome
  | respond (choices : List PChoice) : ProviderOutcome

def vErrToPy : VErr → PyExc
  | .schemaMissing ks => .valueErr (.missingKeys ks)
  | .notIterable => .typeErr
  | .notIntCoercible => .valueErr .badIntCoercion

/-- `_validate_review_response` applied to whatever `json.loads` returned:
on a non-dict, `k in result` is membership (list), substring test (str) or
a `TypeError` (other), and `result.keys()` in the missing-key branch is an
`AttributeError`. -/
def reviewValidateJ : JVal → Except PyExc (List (String × JVal))
  | .obj fs => (validateReview fs).mapError vErrToPy
  | .arr es =>
    if requiredKeys.all (fun k => es.any (fun e => beqJ e (.str k))) then .error .typeErr
    else .error .attrErr
  | .str s =>
    if requiredKeys.all (fun k => containsSub k.toList s.toList) then .error .typeErr
    else .error .attrErr
  | _ => .error .typeErr

/-- The `try` body of `get_code_review` (llm.py lines 150-172). -/
def runReviewBody : ProviderOutcome → Except PyExc (List (String × JVal))
  | .raise e => .error e
  | .respond choices =>
    match choices with
    | [] => .error (.valueErr .noChoices)
    | ch :: _ =>
      match ch.content with
      | none => .error (.valueErr (.emptyResp ch.finishReason))
      | some content =>
        if content = "" then .error (.valueErr (.emptyResp ch.finishReason))
        else
          match extractJson content.toList with
          | .error .decodeFail => .error .jsonDecodeErr
          | .error (.unparsable sn) => .error (.valueErr (.couldNotExtract sn))
          | .ok v => reviewValidateJ v

/-- Fixed payload returned when no provider credentials are configured
(llm.py lines 83-100). -/
def mockReviewPayload : List (String × JVal) :=
  [("review", .str "Mock review: Code looks good! (API not configured)"),
   ("suggestions", .arr
     [.obj [("text", .str "Add more comments to explain complex logic"),
            ("severity", .str "low"),
            ("category", .str "readability")],
      .obj [("text", .str "Consider adding error handling for edge cases"),
            ("severity", .str "medium"),
            ("category", .str "maintainability")]]),
   ("score", .int 7)]

/-- `get_code_review`: mock short-circuit, else the pipeline with the
`except` translation. -/
def getCodeReview (clientConfigured : Bool) (o : ProviderOutcome) :
    Except PyExc (List (String × JVal)) :=
  if clientConfigured = false then .ok mockReviewPayload
  else
    match runReviewBody o with
    | .ok r => .ok r
    | .error e => .error (translateLlm e)

/-- Fixed suggestion list returned in mock mode (llm.py lines 198-203). -/
def mockSuggestions : List JVal :=
  [.obj [("text", .str "Consider adding type hints"),
         ("severity", .str "medium"), ("category", .str "readability")],
   .obj [("text", .str "Add docstrings to functions"),
         ("severity", .str "medium"), ("category", .str "maintainability")],
   .obj [("text", .str "Use more descriptive variable names"),
         ("severity", .str "low"), ("category", .str "readability")]]

/-- The `try` body of `get_code_suggestions` (llm.py lines 205-265). -/
def runSuggBody : ProviderOutcome → Except PyExc (List JVal)
  | .raise e => .error e
  | .respond choices =>
    match choices with
    | [] => .error (.valueErr .noChoices)
    | ch :: _ =>
      match ch.content with
      | none => .error (.valueErr (.emptyResp ch.finishReason))
      | some content =>
        if content = "" then .error (.valueErr (.emptyResp ch.finishReason))
        else
          match extractJson content.toList with
          | .error .decodeFail => .error .jsonDecodeErr
          | .error (.unparsable sn) => .error (.valueErr (.couldNotExtract sn))
          | .ok v =>
            match v with
            | .obj fs =>
              match lookupD fs "suggestions" (.arr []) with
              | .arr es => .ok ((structuredSuggestions es).map sugToJ)
              | _ => .error (.valueErr .notListSugg)
            | _ => .error .attrErr

def getCodeSuggestions (clientConfigured : Bool) (o : ProviderOutcome) :
    Except PyExc (List JVal) :=
  if clientConfigured = false then .ok mockSuggestions
  else
    match runSuggBody o with
    | .ok r => .ok r
    | .error e => .error (translateLlm e)

/-! ## HTTP boundary (`main.py`) -/

/-- The `except` chain of `review_code` (main.py lines 94-141), as the
status it maps an escaping exception to. -/
def reviewStatus (e : PyExc) : Nat :=
  if e matches .authErr then 401
  else if e matches .rateErr then 429
  else if e matches .connErr then 503
  else if isAPIErrorClass e then 502
  else if e matches .jsonDecodeErr then 500
  else if e matches .keyErr then 500
  else 500

/-- `POST /review` (after request validation): 200 payload or error status. -/
def reviewEndpoint (clientConfigured : Bool) (o : ProviderOutcome) :
    Except Nat (List (String × JVal)) :=
  match getCodeReview clientConfigured o with
  | .ok r => .ok r
  | .error e => .error (reviewStatus e)

/-- `POST /suggest`: every failure collapses to 500 (main.py lines 152-159). -/
def suggestEndpoint (clientConfigured : Bool) (o : ProviderOutcome) :
    Except Nat (List JVal) :=
  match getCodeSuggestions clientConfigured o with
  | .ok r => .ok r
  | .error _ => .error 500

/-! ## `POST /complexity` (main.py lines 161-265) -/

structure ComplexityResult where
  lines : Nat
  functions : Nat
  maxNestingDepth : Nat
  complexityScore : Nat
  analysis : String

def functionKeywords : List (List Char) :=
  ["def ".toList, "function ".toList, "async def ".toList,
   "func ".toList, "fn ".toList]

def isFuncLine (line : List Char) : Bool :=
  functionKeywords.any fun k => containsSub k (stripEnds line)

def skipLine (line : List Char) : Bool :=
  let stripped := line.dropWhile isWsChar
  stripped.isEmpty || startsWithL ['#'] stripped || startsWithL ['/', '/'] stripped

def lineDepth (line : List Char) : Nat :=
  let stripped := line.dropWhile isWsChar
  let indent := line.length - stripped.length
  if line.contains '\t' then (line.take indent).count '\t'
  else indent / 4

def analyzeComplexity (code : List Char) : ComplexityResult :=
  let lines := splitNl (stripEnds code)
  let lineCount := lines.length
  let functionCount := lines.countP isFuncLine
  let maxDepth :=
    (lines.filter (fun l => !skipLine l)).foldl (fun acc l => max acc (lineDepth l)) 0
  let s1 := 1 + (if lineCount > 200 then 3
    else if lineCount > 100 then 2 else if lineCount > 50 then 1 else 0)
  let s2 := s1 + (if functionCount > 10 then 3
    else if functionCount > 5 then 2 else if functionCount > 2 then 1 else 0)
  let s3 := s2 + (if maxDepth > 5 then 4 else if maxDepth > 3 then 3
    else if maxDepth > 2 then 2 else if maxDepth > 1 then 1 else 0)
  let score := min s3 10
  let analysis :=
    if score ≤ 3 then "Low complexity - code is simple and easy to understand."
    else if score ≤ 6 then "Moderate complexity - code is reasonably maintainable."
    else if score ≤ 8 then "High complexity - consider refactoring for better maintainability."
    else "Very high complexity - strongly recommend breaking into smaller functions."
  { lines := lineCount, functions := functionCount, maxNestingDepth := maxDepth,
    complexityScore := score, analysis := analysis }

/-! ## Cleanliness and the fence embedding used by the extractor claims -/

def cleanStrB (s : String) : Bool :=
  s.toList.all fun c => !(c == '{' || c == '}' || c == tickCh)

mutual
/-- The value's strings and keys contain no brace and no backtick. -/
def cleanJ : JVal → Bool
  | .null => true
  | .bool _ => true
  | .int _ => true
  | .str s => cleanStrB s
  | .arr es => cleanElems es
  | .obj fs => cleanFields fs
termination_by structural v => v

def cleanElems : List JVal → Bool
  | [] => true
  | v :: vs => cleanJ v && cleanElems vs
termination_by structural l => l

def cleanFields : List (String × JVal) → Bool
  | [] => true
  | (k, v) :: fs => cleanStrB k && cleanJ v && cleanFields fs
termination_by structural l => l
end

def fenceOpen (tag : Bool) : List Char :=
  tickCh :: tickCh :: tickCh :: (if tag then tagJson ++ ['\n'] else ['\n'])

def fenceClose : List Char := '\n' :: tickRun

/-- A markdown-fenced body with surrounding prose. -/
def mkFenceText (tag : Bool) (p1 body p2 : List Char) : List Char :=
  p1 ++ fenceOpen tag ++ body ++ fenceClose ++ p2

/-- Head shape used for number parsing: the continuation after a
serialized value never begins with a digit. -/
def noDigitHead : List Char → Bool
  | [] => true
  | c :: _ => !isDigitCh c

/-! # Lemmas -/

theorem digitChar_isDigit {d : Nat} (h : d < 10) : isDigitCh (digitChar d) = true := by
  interval_cases d <;> decide

theorem digitChar_val {d : Nat} (h : d < 10) : (digitChar d).toNat - 48 = d := by
  interval_cases d <;> decide

theorem digit_not_ws {c : Char} (h : isDigitCh c = true) : isWsChar c = false := by
  cases hw : isWsChar c
  · rfl
  · exfalso
    simp [isWsChar] at hw
    rcases hw with ((h1 | h1) | h1) | h1 <;> subst h1 <;> simp [isDigitCh] at h

theorem digit_ne_delims {c : Char} (h : isDigitCh c = true) :
    c ≠ '{' ∧ c ≠ '[' ∧ c ≠ '"' ∧ c ≠ 't' ∧ c ≠ 'f' ∧ c ≠ 'n' ∧ c ≠ '-'
      ∧ c ≠ ']' ∧ c ≠ '}' ∧ c ≠ tickCh ∧ c ≠ ',' ∧ c ≠ ':' := by
  refine ⟨?_, ?_, ?_, ?_, ?_, ?_, ?_, ?_, ?_, ?_, ?_, ?_⟩ <;>
    (intro he; subst he; exact absurd h (by decide))

theorem alpha_not_ws {c : Char} (h : isAsciiAlpha c = true) : isWsChar c = false := by
  cases hw : isWsChar c
  · rfl
  · exfalso
    simp [isWsChar] at hw
    rcases hw with ((h1 | h1) | h1) | h1 <;> subst h1 <;> simp [isAsciiAlpha] at h

theorem alpha_ne {c : Char} (h : isAsciiAlpha c = true) :
    c ≠ '{' ∧ c ≠ '[' ∧ c ≠ '"' ∧ c ≠ '-' ∧ isDigitCh c = false := by
  refine ⟨?_, ?_, ?_, ?_, ?_⟩
  · intro he; subst he; simp [isAsciiAlpha] at h
  · intro he; subst he; simp [isAsciiAlpha] at h
  · intro he; subst he; simp [isAsciiAlpha] at h
  · intro he; subst he; simp [isAsciiAlpha] at h
  · cases hd : isDigitCh c
    · rfl
    · exfalso
      simp [isDigitCh] at hd
      simp [isAsciiAlpha] at h
      omega

theorem natCharsAux_spec : ∀ fuel n, n < fuel →
    natCharsAux fuel n ≠ [] ∧ ∀ c ∈ natCharsAux fuel n, isDigitCh c = true := by
  intro fuel
  induction fuel with
  | zero => intro n h; omega
  | succ f ih =>
    intro n h
    by_cases h10 : n < 10
    · refine ⟨by simp [natCharsAux, h10], ?_⟩
      intro c hc
      simp [natCharsAux, h10] at hc
      subst hc
      exact digitChar_isDigit h10
    · have hdiv : n / 10 < f := by
        have h1 : n / 10 < n := Nat.div_lt_self (by omega) (by omega)
        omega
      have hrec := ih (n / 10) hdiv
      refine ⟨by simp [natCharsAux, h10], ?_⟩
      intro c hc
      simp only [natCharsAux, if_neg h10, List.mem_append, List.mem_singleton] at hc
      rcases hc with hc | hc
      · exact hrec.2 c hc
      · subst hc
        exact digitChar_isDigit (Nat.mod_lt _ (by omega))

theorem natChars_ne_nil (n : Nat) : natChars n ≠ [] :=
  (natCharsAux_spec (n + 1) n (Nat.lt_succ_self n)).1

theorem natChars_digits (n : Nat) : ∀ c ∈ natChars n, isDigitCh c = true :=
  (natCharsAux_spec (n + 1) n (Nat.lt_succ_self n)).2

theorem grabDigits_stop : ∀ l acc, noDigitHead l = true → grabDigits l acc = (acc, l) := by
  intro l acc h
  cases l with
  | nil => rfl
  | cons c cs =>
    simp [noDigitHead] at h
    simp [grabDigits, h]

theorem grabDigits_chain : ∀ fuel n rest acc, n < fuel →
    grabDigits (natCharsAux fuel n ++ rest) acc
      = grabDigits rest (acc * 10 ^ (natCharsAux fuel n).length + n) := by
  intro fuel
  induction fuel with
  | zero => intro n rest acc h; omega
  | succ f ih =>
    intro n rest acc h
    by_cases h10 : n < 10
    · simp only [natCharsAux, if_pos h10, List.singleton_append, List.length_singleton]
      rw [grabDigits, if_pos (digitChar_isDigit h10), digitChar_val h10]
      simp
    · have hdiv : n / 10 < f := by
        have h1 : n / 10 < n := Nat.div_lt_self (by omega) (by omega)
        omega
      have hm10 : n % 10 < 10 := Nat.mod_lt _ (by omega)
      simp only [natCharsAux, if_neg h10, List.append_assoc, List.singleton_append,
        List.length_append, List.length_singleton]
      rw [ih (n / 10) _ acc hdiv]
      rw [grabDigits, if_pos (digitChar_isDigit hm10), digitChar_val hm10]
      congr 1
      have hdm := Nat.div_add_mod n 10
      have : acc * 10 ^ ((natCharsAux f (n / 10)).length + 1)
          = acc * 10 ^ (natCharsAux f (n / 10)).length * 10 := by ring
      rw [this]
      omega

theorem grabDigits_natChars {n : Nat} {rest : List Char} (h : noDigitHead rest = true) :
    grabDigits (natChars n ++ rest) 0 = (n, rest) := by
  unfold natChars
  rw [grabDigits_chain (n + 1) n rest 0 (Nat.lt_succ_self n), grabDigits_stop _ _ h]
  simp
theorem escChars_cons (c : Char) (cs : List Char) :
    escChars (c :: cs) = escChar c ++ escChars cs := rfl

theorem strMk_toList (s : String) : String.mk s.toList = s := rfl

theorem parseStrBody_cons_lit {c : Char} (h2 : c ≠ '\\') (h1 : c ≠ '"') (cs : List Char) :
    parseStrBody (c :: cs) = (parseStrBody cs).map fun p => (c :: p.1, p.2) := by
  rw [parseStrBody.eq_def]
  simp [h1, h2]

theorem parseStrBody_esc : ∀ l rest, parseStrBody (escChars l ++ '"' :: rest) = some (l, rest) := by
  intro l
  induction l with
  | nil =>
    intro rest
    show parseStrBody ('"' :: rest) = some ([], rest)
    rw [parseStrBody.eq_def]
    simp
  | cons c cs ih =>
    intro rest
    rw [escChars_cons, List.append_assoc]
    by_cases h1 : c = '"'
    · subst h1
      show parseStrBody ('\\' :: '"' :: (escChars cs ++ '"' :: rest)) = _
      rw [parseStrBody.eq_def]
      simp [unescCh, ih]
    · by_cases h2 : c = '\\'
      · subst h2
        show parseStrBody ('\\' :: '\\' :: (escChars cs ++ '"' :: rest)) = _
        rw [parseStrBody.eq_def]
        simp [unescCh, ih]
      · by_cases h3 : c = '\n'
        · subst h3
          show parseStrBody ('\\' :: 'n' :: (escChars cs ++ '"' :: rest)) = _
          rw [parseStrBody.eq_def]
          simp [unescCh, ih]
        · by_cases h4 : c = '\t'
          · subst h4
            show parseStrBody ('\\' :: 't' :: (escChars cs ++ '"' :: rest)) = _
            rw [parseStrBody.eq_def]
            simp [unescCh, ih]
          · by_cases h5 : c = '\r'
            · subst h5
              show parseStrBody ('\\' :: 'r' :: (escChars cs ++ '"' :: rest)) = _
              rw [parseStrBody.eq_def]
              simp [unescCh, ih]
            · have he : escChar c = [c] := by
                simp [escChar, h1, h2, h3, h4, h5]
              rw [he, List.singleton_append, parseStrBody_cons_lit h2 h1, ih]
              rfl

theorem skipWs_cons_nws {c : Char} {l : List Char} (h : isWsChar c = false) :
    skipWs (c :: l) = c :: l := by
  simp [skipWs, List.dropWhile_cons, h]

theorem skipWs_cons_ws {c : Char} {l : List Char} (h : isWsChar c = true) :
    skipWs (c :: l) = skipWs l := by
  simp [skipWs, List.dropWhile_cons, h]

theorem parseVal_ws {fuel : Nat} {c : Char} {s : List Char} (h : isWsChar c = true) :
    parseVal fuel (c :: s) = parseVal fuel s := by
  cases fuel with
  | zero => rfl
  | succ f => simp only [parseVal, skipWs_cons_ws h]

theorem parseElemsF_ws {fuel : Nat} {c : Char} {s : List Char} (h : isWsChar c = true) :
    parseElemsF fuel (c :: s) = parseElemsF fuel s := by
  cases fuel with
  | zero => rfl
  | succ f => simp only [parseElemsF, parseVal_ws h]

theorem parseFieldsF_ws {fuel : Nat} {c : Char} {s : List Char} (h : isWsChar c = true) :
    parseFieldsF fuel (c :: s) = parseFieldsF fuel s := by
  cases fuel with
  | zero => rfl
  | succ f => simp only [parseFieldsF, skipWs_cons_ws h]

theorem serJ_head (v : JVal) :
    ∃ c t, serJ v = c :: t ∧ isWsChar c = false ∧ c ≠ ']' ∧ c ≠ '}' := by
  cases v with
  | null => refine ⟨'n', _, rfl, ?_, ?_, ?_⟩ <;> decide
  | bool b =>
    cases b
    · refine ⟨'f', _, rfl, ?_, ?_, ?_⟩ <;> decide
    · refine ⟨'t', _, rfl, ?_, ?_, ?_⟩ <;> decide
  | int n =>
    by_cases hn : n < 0
    · exact ⟨'-', natChars n.natAbs, by simp [serJ, intChars, hn],
        by decide, by decide, by decide⟩
    · have hser : serJ (.int n) = natChars n.toNat := by simp [serJ, intChars, hn]
      obtain ⟨c, t, hct⟩ : ∃ c t, natChars n.toNat = c :: t := by
        cases hcc : natChars n.toNat with
        | nil => exact absurd hcc (natChars_ne_nil _)
        | cons c t => exact ⟨c, t, rfl⟩
      have hd : isDigitCh c = true :=
        natChars_digits n.toNat c (by rw [hct]; exact List.mem_cons_self _ _)
      have hne := digit_ne_delims hd
      exact ⟨c, t, by rw [hser, hct], digit_not_ws hd,
        hne.2.2.2.2.2.2.2.1, hne.2.2.2.2.2.2.2.2.1⟩
  | str s => refine ⟨'"', _, rfl, ?_, ?_, ?_⟩ <;> decide
  | arr es => refine ⟨'[', _, rfl, ?_, ?_, ?_⟩ <;> decide
  | obj fs => refine ⟨'{', _, rfl, ?_, ?_, ?_⟩ <;> decide

theorem serJ_len_pos (v : JVal) : 1 ≤ (serJ v).length := by
  obtain ⟨c, t, h, -⟩ := serJ_head v
  simp [h]

theorem sizeJ_pos (v : JVal) : 1 ≤ sizeJ v := by
  cases v <;> simp [sizeJ]

mutual
theorem sizeJ_le_len : ∀ v : JVal, sizeJ v ≤ (serJ v).length
  | .null => by simp [sizeJ, serJ]
  | .bool b => by cases b <;> simp [sizeJ, serJ]
  | .int n => by
    have := serJ_len_pos (.int n)
    simp only [sizeJ]
    omega
  | .str s => by simp [sizeJ, serJ]
  | .arr es => by
    have h := sizeElems_le_len es
    have hsz : sizeJ (.arr es) = 1 + sizeElems es := rfl
    have hsr : (serJ (.arr es)).length = (serElems es).length + 2 := by
      simp [serJ]
    omega
  | .obj fs => by
    have h := sizeFields_le_len fs
    have hsz : sizeJ (.obj fs) = 1 + sizeFields fs := rfl
    have hsr : (serJ (.obj fs)).length = (serFields fs).length + 2 := by
      simp [serJ]
    omega

theorem sizeElems_le_len : ∀ es : List JVal, sizeElems es ≤ (serElems es).length + 1
  | [] => by simp [sizeElems, serElems]
  | [v] => by
    have h := sizeJ_le_len v
    have hsz : sizeElems [v] = 1 + max (sizeJ v) 0 := rfl
    have hsr : serElems [v] = serJ v := rfl
    rw [hsz, hsr]
    omega
  | v :: w :: ws => by
    have h1 := sizeJ_le_len v
    have h2 := sizeElems_le_len (w :: ws)
    have h3 := serJ_len_pos v
    have hsz : sizeElems (v :: w :: ws) = 1 + max (sizeJ v) (sizeElems (w :: ws)) := rfl
    have hsr : (serElems (v :: w :: ws)).length
        = (serJ v).length + 2 + (serElems (w :: ws)).length := by
      show (serJ v ++ ',' :: ' ' :: serElems (w :: ws)).length = _
      simp
      omega
    rw [hsz, hsr]
    omega

theorem sizeFields_le_len : ∀ fs : List (String × JVal),
    sizeFields fs ≤ (serFields fs).length + 1
  | [] => by simp [sizeFields, serFields]
  | [(k, v)] => by
    have h := sizeJ_le_len v
    have hsz : sizeFields [(k, v)] = 1 + max (sizeJ v) 0 := rfl
    have hsr : (serFields [(k, v)]).length = (escChars k.toList).length + 4 + (serJ v).length := by
      show ('"' :: escChars k.toList ++ '"' :: ':' :: ' ' :: serJ v).length = _
      simp
      omega
    rw [hsz, hsr]
    omega
  | (k, v) :: f2 :: fs3 => by
    have h1 := sizeJ_le_len v
    have h2 := sizeFields_le_len (f2 :: fs3)
    have h3 := serJ_len_pos v
    have hsz : sizeFields ((k, v) :: f2 :: fs3)
        = 1 + max (sizeJ v) (sizeFields (f2 :: fs3)) := rfl
    have hsr : (serFields ((k, v) :: f2 :: fs3)).length
        = (escChars k.toList).length + 6 + (serJ v).length
          + (serFields (f2 :: fs3)).length := by
      show ('"' :: escChars k.toList ++ '"' :: ':' :: ' ' :: serJ v
        ++ ',' :: ' ' :: serFields (f2 :: fs3)).length = _
      simp
      omega
    rw [hsz, hsr]
    omega
end

mutual
theorem parseVal_ser : ∀ (v : JVal) (fuel : Nat) (rest : List Char),
    sizeJ v ≤ fuel → noDigitHead rest = true →
    parseVal fuel (serJ v ++ rest) = some (v, rest)
  | v, 0, rest => by
    intro h _
    have := sizeJ_pos v
    omega
  | .null, fuel + 1, rest => by
    intro _ _
    show parseVal (fuel + 1) ('n' :: 'u' :: 'l' :: 'l' :: rest) = _
    rw [parseVal.eq_def]
    simp [skipWs, isWsChar, startsWithL]
  | .bool true, fuel + 1, rest => by
    intro _ _
    show parseVal (fuel + 1) ('t' :: 'r' :: 'u' :: 'e' :: rest) = _
    rw [parseVal.eq_def]
    simp [skipWs, isWsChar, startsWithL]
  | .bool false, fuel + 1, rest => by
    intro _ _
    show parseVal (fuel + 1) ('f' :: 'a' :: 'l' :: 's' :: 'e' :: rest) = _
    rw [parseVal.eq_def]
    simp [skipWs, isWsChar, startsWithL]
  | .str s, fuel + 1, rest => by
    intro _ _
    have hsh : serJ (.str s) ++ rest = '"' :: (escChars s.toList ++ '"' :: rest) := by
      show ('"' :: escChars s.toList ++ ['"']) ++ rest = _
      simp
    rw [hsh, parseVal.eq_def]
    simp [skipWs, isWsChar, parseStrBody_esc, strMk_toList]
  | .int n, fuel + 1, rest => by
    intro _ hrest
    by_cases hn : n < 0
    · have hsh : serJ (.int n) ++ rest = '-' :: (natChars n.natAbs ++ rest) := by
        simp [serJ, intChars, hn]
      obtain ⟨c0, t0, h0⟩ : ∃ c t, natChars n.natAbs = c :: t := by
        cases hcc : natChars n.natAbs with
        | nil => exact absurd hcc (natChars_ne_nil _)
        | cons c t => exact ⟨c, t, rfl⟩
      have hd : isDigitCh c0 = true :=
        natChars_digits _ c0 (by rw [h0]; exact List.mem_cons_self _ _)
      rw [hsh, parseVal.eq_def]
      simp only [skipWs_cons_nws (by decide : isWsChar '-' = false)]
      rw [h0]
      simp only [List.cons_append]
      simp [isWsChar, hd, ← List.cons_append, ← h0, grabDigits_natChars hrest]
      rw [abs_of_neg hn]
      ring
    · have hsh : serJ (.int n) ++ rest = natChars n.toNat ++ rest := by
        simp [serJ, intChars, hn]
      obtain ⟨c0, t0, h0⟩ : ∃ c t, natChars n.toNat = c :: t := by
        cases hcc : natChars n.toNat with
        | nil => exact absurd hcc (natChars_ne_nil _)
        | cons c t => exact ⟨c, t, rfl⟩
      have hd : isDigitCh c0 = true :=
        natChars_digits _ c0 (by rw [h0]; exact List.mem_cons_self _ _)
      have hne := digit_ne_delims hd
      rw [hsh, h0, List.cons_append, parseVal.eq_def]
      simp only [skipWs_cons_nws (digit_not_ws hd)]
      simp [hne.1, hne.2.1, hne.2.2.1, hne.2.2.2.1, hne.2.2.2.2.1, hne.2.2.2.2.2.1,
        hne.2.2.2.2.2.2.1, hd, ← List.cons_append, ← h0, grabDigits_natChars hrest]
      omega
  | .arr [], fuel + 1, rest => by
    intro _ _
    show parseVal (fuel + 1) ('[' :: ']' :: rest) = _
    rw [parseVal.eq_def]
    simp [skipWs, isWsChar]
  | .arr (e :: es2), fuel + 1, rest => by
    intro hsz _
    have hsh : serJ (.arr (e :: es2)) ++ rest
        = '[' :: (serElems (e :: es2) ++ ']' :: rest) := by
      show ('[' :: serElems (e :: es2) ++ [']']) ++ rest = _
      simp
    obtain ⟨c0, t0, h0, hnws, hne1, hne2⟩ := serJ_head e
    have hselems : ∃ t1, serElems (e :: es2) = c0 :: t1 := by
      cases es2 with
      | nil => exact ⟨t0, h0⟩
      | cons w ws =>
        refine ⟨t0 ++ ',' :: ' ' :: serElems (w :: ws), ?_⟩
        show serJ e ++ ',' :: ' ' :: serElems (w :: ws) = _
        rw [h0]
        rfl
    obtain ⟨t1, h1⟩ := hselems
    have hfuel : sizeElems (e :: es2) ≤ fuel := by
      have : sizeJ (.arr (e :: es2)) = 1 + sizeElems (e :: es2) := rfl
      omega
    have hhead : (serElems (e :: es2) ++ ']' :: rest).head? = some c0 := by
      rw [h1]; rfl
    have hnn : serElems (e :: es2) ++ ']' :: rest ≠ [] := by
      rw [h1]; simp
    have hskip : skipWs (serElems (e :: es2) ++ ']' :: rest)
        = serElems (e :: es2) ++ ']' :: rest := by
      rw [h1, List.cons_append]; exact skipWs_cons_nws hnws
    rw [hsh, parseVal.eq_def]
    simp only [skipWs_cons_nws (by decide : isWsChar '[' = false), hskip]
    simp [hhead, hne1, hnn, parseElemsF_ser (e :: es2) fuel rest (by simp) hfuel]
  | .obj [], fuel + 1, rest => by
    intro _ _
    show parseVal (fuel + 1) ('{' :: '}' :: rest) = _
    rw [parseVal.eq_def]
    simp [skipWs, isWsChar]
  | .obj (f0 :: fs2), fuel + 1, rest => by
    intro hsz _
    have hsh : serJ (.obj (f0 :: fs2)) ++ rest
        = '{' :: (serFields (f0 :: fs2) ++ '}' :: rest) := by
      show ('{' :: serFields (f0 :: fs2) ++ ['}']) ++ rest = _
      simp
    have hsf : ∃ t1, serFields (f0 :: fs2) = '"' :: t1 := by
      obtain ⟨k, v⟩ := f0
      cases fs2 with
      | nil => exact ⟨_, rfl⟩
      | cons g gs => exact ⟨_, rfl⟩
    obtain ⟨t1, h1⟩ := hsf
    have hfuel : sizeFields (f0 :: fs2) ≤ fuel := by
      have : sizeJ (.obj (f0 :: fs2)) = 1 + sizeFields (f0 :: fs2) := rfl
      omega
    have hhead : (serFields (f0 :: fs2) ++ '}' :: rest).head? = some '"' := by
      rw [h1]; rfl
    have hnn : serFields (f0 :: fs2) ++ '}' :: rest ≠ [] := by
      rw [h1]; simp
    have hskip : skipWs (serFields (f0 :: fs2) ++ '}' :: rest)
        = serFields (f0 :: fs2) ++ '}' :: rest := by
      rw [h1, List.cons_append]; exact skipWs_cons_nws (by decide)
    rw [hsh, parseVal.eq_def]
    simp only [skipWs_cons_nws (by decide : isWsChar '{' = false), hskip]
    simp [hhead, hnn, parseFieldsF_ser (f0 :: fs2) fuel rest (by simp) hfuel]

theorem parseElemsF_ser : ∀ (es : List JVal) (fuel : Nat) (rest : List Char),
    es ≠ [] → sizeElems es ≤ fuel →
    parseElemsF fuel (serElems es ++ ']' :: rest) = some (es, rest)
  | [], _, _ => by intro h _; exact absurd rfl h
  | e :: es2, 0, rest => by
    intro _ h
    have : sizeElems (e :: es2) = 1 + max (sizeJ e) (sizeElems es2) := rfl
    omega
  | [e], fuel + 1, rest => by
    intro _ hsz
    have hfe : sizeJ e ≤ fuel := by
      have : sizeElems [e] = 1 + max (sizeJ e) 0 := rfl
      omega
    have hser : serElems [e] = serJ e := rfl
    rw [hser, parseElemsF]
    rw [parseVal_ser e fuel (']' :: rest) hfe rfl]
    simp [skipWs, isWsChar]
  | e :: w :: ws, fuel + 1, rest => by
    intro _ hsz
    have hfe : sizeJ e ≤ fuel := by
      have : sizeElems (e :: w :: ws) = 1 + max (sizeJ e) (sizeElems (w :: ws)) := rfl
      omega
    have hfs : sizeElems (w :: ws) ≤ fuel := by
      have : sizeElems (e :: w :: ws) = 1 + max (sizeJ e) (sizeElems (w :: ws)) := rfl
      omega
    have hser : serElems (e :: w :: ws) ++ ']' :: rest
        = serJ e ++ (',' :: ' ' :: (serElems (w :: ws) ++ ']' :: rest)) := by
      show (serJ e ++ ',' :: ' ' :: serElems (w :: ws)) ++ ']' :: rest = _
      simp
    rw [hser, parseElemsF]
    rw [parseVal_ser e fuel (',' :: ' ' :: (serElems (w :: ws) ++ ']' :: rest)) hfe rfl]
    simp only [Option.some_bind]
    rw [skipWs_cons_nws (by decide : isWsChar ',' = false)]
    simp only [parseElemsF_ws (by decide : isWsChar ' ' = true)]
    rw [parseElemsF_ser (w :: ws) fuel rest (by simp) hfs]
    rfl

theorem parseFieldsF_ser : ∀ (fs : List (String × JVal)) (fuel : Nat) (rest : List Char),
    fs ≠ [] → sizeFields fs ≤ fuel →
    parseFieldsF fuel (serFields fs ++ '}' :: rest) = some (fs, rest)
  | [], _, _ => by intro h _; exact absurd rfl h
  | f0 :: fs2, 0, rest => by
    intro _ h
    have : sizeFields (f0 :: fs2) = 1 + max (sizeJ f0.2) (sizeFields fs2) := by
      obtain ⟨k, v⟩ := f0
      rfl
    omega
  | [(k, v)], fuel + 1, rest => by
    intro _ hsz
    have hfv : sizeJ v ≤ fuel := by
      have : sizeFields [(k, v)] = 1 + max (sizeJ v) 0 := rfl
      omega
    have hser : serFields [(k, v)] ++ '}' :: rest
        = '"' :: (escChars k.toList ++ '"' :: (':' :: ' ' :: (serJ v ++ '}' :: rest))) := by
      show ('"' :: escChars k.toList ++ '"' :: ':' :: ' ' :: serJ v) ++ '}' :: rest = _
      simp
    rw [hser, parseFieldsF]
    simp only [skipWs_cons_nws (by decide : isWsChar '"' = false)]
    rw [parseStrBody_esc]
    simp only [Option.some_bind]
    rw [skipWs_cons_nws (by decide : isWsChar ':' = false)]
    simp only [parseVal_ws (by decide : isWsChar ' ' = true)]
    rw [parseVal_ser v fuel ('}' :: rest) hfv rfl]
    simp only [Option.some_bind]
    rw [skipWs_cons_nws (by decide : isWsChar '}' = false)]
    simp [strMk_toList]
  | (k, v) :: g :: gs, fuel + 1, rest => by
    intro _ hsz
    have hfv : sizeJ v ≤ fuel := by
      have : sizeFields ((k, v) :: g :: gs) = 1 + max (sizeJ v) (sizeFields (g :: gs)) := rfl
      omega
    have hfs : sizeFields (g :: gs) ≤ fuel := by
      have : sizeFields ((k, v) :: g :: gs) = 1 + max (sizeJ v) (sizeFields (g :: gs)) := rfl
      omega
    have hser : serFields ((k, v) :: g :: gs) ++ '}' :: rest
        = '"' :: (escChars k.toList ++ '"' :: (':' :: ' ' :: (serJ v
            ++ ',' :: ' ' :: (serFields (g :: gs) ++ '}' :: rest)))) := by
      show ('"' :: escChars k.toList ++ '"' :: ':' :: ' ' :: serJ v
        ++ ',' :: ' ' :: serFields (g :: gs)) ++ '}' :: rest = _
      simp
    rw [hser, parseFieldsF]
    simp only [skipWs_cons_nws (by decide : isWsChar '"' = false)]
    rw [parseStrBody_esc]
    simp only [Option.some_bind]
    rw [skipWs_cons_nws (by decide : isWsChar ':' = false)]
    simp only [parseVal_ws (by decide : isWsChar ' ' = true)]
    rw [parseVal_ser v fuel
      (',' :: ' ' :: (serFields (g :: gs) ++ '}' :: rest)) hfv rfl]
    simp only [Option.some_bind]
    rw [skipWs_cons_nws (by decide : isWsChar ',' = false)]
    simp only [parseFieldsF_ws (by decide : isWsChar ' ' = true)]
    rw [parseFieldsF_ser (g :: gs) fuel rest (by simp) hfs]
    simp [strMk_toList]
end

theorem pyLoads_ser (v : JVal) : pyLoads (serJ v) = some v := by
  unfold pyLoads
  have h2 : sizeJ v ≤ (serJ v).length + 1 := by
    have := sizeJ_le_len v
    omega
  have hp := parseVal_ser v ((serJ v).length + 1) [] h2 (by decide)
  rw [List.append_nil] at hp
  rw [hp]
  simp [skipWs]

theorem skipWs_ne_nil_of_mem {x : Char} {l : List Char}
    (hx : x ∈ l) (hnw : isWsChar x = false) : skipWs l ≠ [] := by
  induction l with
  | nil => cases hx
  | cons c cs ih =>
    cases hw : isWsChar c
    · rw [skipWs_cons_nws hw]
      simp
    · rw [skipWs_cons_ws hw]
      rcases List.mem_cons.mp hx with h | h
      · subst h
        rw [hnw] at hw
        cases hw
      · exact ih h

theorem drop_append_mem {x : Char} {A B : List Char} {k : Nat}
    (hk : k ≤ A.length) (hx : x ∈ B) : x ∈ (A ++ B).drop k := by
  rw [List.drop_append_of_le_length hk]
  exact List.mem_append_right _ hx

theorem pyLoads_prose_none (c : Char) (t hdr rest : List Char)
    (hα : isAsciiAlpha c = true) (hh : 4 ≤ hdr.length)
    (x : Char) (hx : x ∈ rest) (hxnw : isWsChar x = false) :
    pyLoads (c :: (t ++ hdr ++ rest)) = none := by
  have hne := alpha_ne hα
  have hnw := alpha_not_ws hα
  have hxmem : ∀ k, k ≤ 4 → x ∈ List.drop k (t ++ (hdr ++ rest)) := by
    intro k hk
    have h1 : k ≤ (t ++ hdr).length := by
      simp only [List.length_append]
      omega
    rw [← List.append_assoc]
    exact drop_append_mem h1 hx
  unfold pyLoads
  rw [parseVal.eq_def]
  simp only [List.length_cons]
  rw [skipWs_cons_nws hnw]
  by_cases hc : c = 't'
  · subst hc
    simp only [if_neg hne.1, if_neg hne.2.1, if_neg hne.2.2.1, if_pos rfl]
    cases hs : startsWithL ['r', 'u', 'e'] (t ++ hdr ++ rest)
    · simp
    · simp [skipWs_ne_nil_of_mem (hxmem 3 (by omega)) hxnw]
  · by_cases hf : c = 'f'
    · subst hf
      simp only [if_neg hne.1, if_neg hne.2.1, if_neg hne.2.2.1,
        if_neg (by decide : ¬('f' : Char) = 't'), if_pos rfl]
      cases hs : startsWithL ['a', 'l', 's', 'e'] (t ++ hdr ++ rest)
      · simp
      · simp [skipWs_ne_nil_of_mem (hxmem 4 (by omega)) hxnw]
    · by_cases hn : c = 'n'
      · subst hn
        simp only [if_neg hne.1, if_neg hne.2.1, if_neg hne.2.2.1,
          if_neg (by decide : ¬('n' : Char) = 't'),
          if_neg (by decide : ¬('n' : Char) = 'f'), if_pos rfl]
        cases hs : startsWithL ['u', 'l', 'l'] (t ++ hdr ++ rest)
        · simp
        · simp [skipWs_ne_nil_of_mem (hxmem 3 (by omega)) hxnw]
      · simp [hne.1, hne.2.1, hne.2.2.1, hc, hf, hn, hne.2.2.2.1, hne.2.2.2.2]

theorem startsWithL_self_append : ∀ p x : List Char, startsWithL p (p ++ x) = true := by
  intro p
  induction p with
  | nil => intro x; rfl
  | cons a p' ih => intro x; simp [startsWithL, ih]

theorem fenceAttempt_no_tick {d : Char} (hd : d ≠ tickCh) (X : List Char) :
    fenceAttempt (d :: X) = none := by
  have hsw : startsWithL tickRun (d :: X) = false := by
    simp only [tickRun, startsWithL, Bool.and_eq_false_iff]
    left
    simp
    exact fun h => hd h.symm
  unfold fenceAttempt
  rw [hsw]
  simp

theorem findFenced_skip : ∀ p1 y : List Char, tickCh ∉ p1 →
    findFenced (p1 ++ y) = findFenced y := by
  intro p1
  induction p1 with
  | nil => intro y _; rfl
  | cons d p1' ih =>
    intro y hd
    have hd1 : d ≠ tickCh := fun he => hd (he ▸ List.mem_cons_self d p1')
    have hd2 : tickCh ∉ p1' := fun hm => hd (List.mem_cons_of_mem _ hm)
    rw [List.cons_append, findFenced, fenceAttempt_no_tick hd1, ih y hd2]

theorem lazyCapture_chunk : ∀ (A : List Char), '}' ∉ A → ∀ K,
    lazyCapture (A ++ K) = (lazyCapture K).map (A ++ ·) := by
  intro A
  induction A with
  | nil =>
    intro _ K
    cases hK : lazyCapture K <;> simp [hK]
  | cons a A' ih =>
    intro h K
    have ha : a ≠ '}' := fun he => h (he ▸ List.mem_cons_self a A')
    have h' : '}' ∉ A' := fun hm => h (List.mem_cons_of_mem _ hm)
    rw [List.cons_append, lazyCapture]
    simp only [ha, decide_False, Bool.false_and, Bool.if_false_left, Bool.not_false]
    rw [ih h' K]
    cases hK : lazyCapture K <;> simp [hK]

theorem mem_escChar {x ch : Char} (h : x ∈ escChar ch) :
    x = ch ∨ x ∈ ['\\', '"', 'n', 't', 'r'] := by
  unfold escChar at h
  split_ifs at h <;> simp_all <;> tauto

theorem noBrace_escChars {l : List Char} (h : '}' ∉ l) : '}' ∉ escChars l := by
  intro hm
  simp only [escChars, List.mem_flatMap] at hm
  obtain ⟨c, hc, hmem⟩ := hm
  rcases mem_escChar hmem with he | he
  · exact h (he ▸ hc)
  · simp at he

theorem cleanStrB_no_brace {s : String} (h : cleanStrB s = true) : '}' ∉ s.toList := by
  intro hm
  simp only [cleanStrB, List.all_eq_true] at h
  have := h _ hm
  simp at this

theorem noBrace_serStr {s : String} (h : cleanStrB s = true) : '}' ∉ serJ (.str s) := by
  have h2 := noBrace_escChars (cleanStrB_no_brace h)
  intro hm
  simp only [serJ] at hm
  rcases List.mem_cons.mp hm with hm | hm
  · cases hm
  · rcases List.mem_append.mp hm with hm | hm
    · exact h2 hm
    · simp at hm

theorem noBrace_intChars (n : Int) : '}' ∉ intChars n := by
  intro hm
  unfold intChars at hm
  split_ifs at hm
  · rcases List.mem_cons.mp hm with hm | hm
    · cases hm
    · exact absurd (natChars_digits _ _ hm) (by decide)
  · exact absurd (natChars_digits _ _ hm) (by decide)

theorem notCapture_cons {c : Char} (K : List Char) (hc : isWsChar c = false)
    (ht : (tickCh == c) = false) :
    startsWithL tickRun (skipWs (c :: K)) = false := by
  rw [skipWs_cons_nws hc]
  simp [tickRun, startsWithL, ht]

mutual
theorem lazyCapture_serJ : ∀ (v : JVal), cleanJ v = true → ∀ K : List Char,
    startsWithL tickRun (skipWs K) = false →
    lazyCapture (serJ v ++ K) = (lazyCapture K).map (serJ v ++ ·)
  | .null, _, K, _ => lazyCapture_chunk _ (by decide) K
  | .bool true, _, K, _ => lazyCapture_chunk _ (by decide) K
  | .bool false, _, K, _ => lazyCapture_chunk _ (by decide) K
  | .int n, _, K, _ =>
    lazyCapture_chunk _ (by simp only [serJ]; exact noBrace_intChars n) K
  | .str s, hcl, K, _ => by
    have hs : cleanStrB s = true := by simpa [cleanJ] using hcl
    exact lazyCapture_chunk _ (noBrace_serStr hs) K
  | .arr es, hcl, K, hK => by
    have hce : cleanElems es = true := by simpa [cleanJ] using hcl
    have hK1 : startsWithL tickRun (skipWs (']' :: K)) = false :=
      notCapture_cons K (by decide) (by decide)
    have h1 := lazyCapture_serElems es hce (']' :: K) hK1
    have h2 : lazyCapture (']' :: K) = (lazyCapture K).map (']' :: ·) := by
      rw [lazyCapture]
      simp
    have hsh : serJ (.arr es) ++ K = '[' :: (serElems es ++ (']' :: K)) := by
      show ('[' :: serElems es ++ [']']) ++ K = _
      simp
    rw [hsh, lazyCapture, h1, h2]
    cases hKo : lazyCapture K <;> simp [hKo, serJ]
  | .obj fs, hcl, K, hK => by
    have hcf : cleanFields fs = true := by simpa [cleanJ] using hcl
    have hK1 : startsWithL tickRun (skipWs ('}' :: K)) = false :=
      notCapture_cons K (by decide) (by decide)
    have h1 := lazyCapture_serFields fs hcf ('}' :: K) hK1
    have h2 : lazyCapture ('}' :: K) = (lazyCapture K).map ('}' :: ·) := by
      rw [lazyCapture]
      simp [hK]
    have hsh : serJ (.obj fs) ++ K = '{' :: (serFields fs ++ ('}' :: K)) := by
      show ('{' :: serFields fs ++ ['}']) ++ K = _
      simp
    rw [hsh, lazyCapture, h1, h2]
    cases hKo : lazyCapture K <;> simp [hKo, serJ]

theorem lazyCapture_serElems : ∀ (es : List JVal), cleanElems es = true → ∀ K : List Char,
    startsWithL tickRun (skipWs K) = false →
    lazyCapture (serElems es ++ K) = (lazyCapture K).map (serElems es ++ ·)
  | [], _, K, _ => by
    cases hK : lazyCapture K <;> simp [serElems, hK]
  | [v], hcl, K, hK => by
    have hv : cleanJ v = true := by simpa [cleanElems] using hcl
    have hsh : serElems [v] = serJ v := rfl
    rw [hsh]
    exact lazyCapture_serJ v hv K hK
  | v :: w :: ws, hcl, K, hK => by
    have hv : cleanJ v = true := by
      have := hcl
      simp only [cleanElems, Bool.and_eq_true] at this
      exact this.1
    have hws : cleanElems (w :: ws) = true := by
      simp only [cleanElems, Bool.and_eq_true] at hcl ⊢
      exact hcl.2
    have hK2 : startsWithL tickRun (skipWs (',' :: ' ' :: (serElems (w :: ws) ++ K))) = false :=
      notCapture_cons _ (by decide) (by decide)
    have h1 := lazyCapture_serJ v hv (',' :: ' ' :: (serElems (w :: ws) ++ K)) hK2
    have h3 := lazyCapture_chunk [',', ' '] (by decide) (serElems (w :: ws) ++ K)
    have h4 := lazyCapture_serElems (w :: ws) hws K hK
    have hsh : serElems (v :: w :: ws) ++ K
        = serJ v ++ (',' :: ' ' :: (serElems (w :: ws) ++ K)) := by
      show (serJ v ++ ',' :: ' ' :: serElems (w :: ws)) ++ K = _
      simp
    have hsh2 : (',' :: ' ' :: (serElems (w :: ws) ++ K))
        = [',', ' '] ++ (serElems (w :: ws) ++ K) := rfl
    rw [hsh, h1, hsh2, h3, h4]
    cases hKo : lazyCapture K <;> simp [hKo, serElems]

theorem lazyCapture_serFields : ∀ (fs : List (String × JVal)), cleanFields fs = true →
    ∀ K : List Char, startsWithL tickRun (skipWs K) = false →
    lazyCapture (serFields fs ++ K) = (lazyCapture K).map (serFields fs ++ ·)
  | [], _, K, _ => by
    cases hK : lazyCapture K <;> simp [serFields, hK]
  | [(k, v)], hcl, K, hK => by
    have hk : cleanStrB k = true := by
      have := hcl
      simp only [cleanFields, Bool.and_eq_true] at this
      exact this.1.1
    have hv : cleanJ v = true := by
      have := hcl
      simp only [cleanFields, Bool.and_eq_true] at this
      exact this.1.2
    have hA : '}' ∉ ('"' :: escChars k.toList ++ ['"', ':', ' ']) := by
      intro hm
      rcases List.mem_cons.mp hm with hm2 | hm2
      · cases hm2
      · rcases List.mem_append.mp hm2 with hm3 | hm3
        · exact noBrace_escChars (cleanStrB_no_brace hk) hm3
        · simp at hm3
    have h1 := lazyCapture_chunk _ hA (serJ v ++ K)
    have h2 := lazyCapture_serJ v hv K hK
    have hsh : serFields [(k, v)] ++ K
        = ('"' :: escChars k.toList ++ ['"', ':', ' ']) ++ (serJ v ++ K) := by
      show ('"' :: escChars k.toList ++ '"' :: ':' :: ' ' :: serJ v) ++ K = _
      simp
    rw [hsh, h1, h2]
    cases hKo : lazyCapture K <;> simp [hKo, serFields]
  | (k, v) :: g :: gs, hcl, K, hK => by
    have hk : cleanStrB k = true := by
      have := hcl
      simp only [cleanFields, Bool.and_eq_true] at this
      exact this.1.1
    have hv : cleanJ v = true := by
      have := hcl
      simp only [cleanFields, Bool.and_eq_true] at this
      exact this.1.2
    have hgs : cleanFields (g :: gs) = true := by
      simp only [cleanFields, Bool.and_eq_true] at hcl ⊢
      exact hcl.2
    have hA : '}' ∉ ('"' :: escChars k.toList ++ ['"', ':', ' ']) := by
      intro hm
      rcases List.mem_cons.mp hm with hm2 | hm2
      · cases hm2
      · rcases List.mem_append.mp hm2 with hm3 | hm3
        · exact noBrace_escChars (cleanStrB_no_brace hk) hm3
        · simp at hm3
    have hK2 : startsWithL tickRun (skipWs (',' :: ' ' :: (serFields (g :: gs) ++ K))) = false :=
      notCapture_cons _ (by decide) (by decide)
    have h1 := lazyCapture_chunk _ hA
      (serJ v ++ (',' :: ' ' :: (serFields (g :: gs) ++ K)))
    have h2 := lazyCapture_serJ v hv (',' :: ' ' :: (serFields (g :: gs) ++ K)) hK2
    have hsh2 : (',' :: ' ' :: (serFields (g :: gs) ++ K))
        = [',', ' '] ++ (serFields (g :: gs) ++ K) := rfl
    have h3 := lazyCapture_chunk [',', ' '] (by decide) (serFields (g :: gs) ++ K)
    have h4 := lazyCapture_serFields (g :: gs) hgs K hK
    have hsh : serFields ((k, v) :: g :: gs) ++ K
        = ('"' :: escChars k.toList ++ ['"', ':', ' '])
          ++ (serJ v ++ (',' :: ' ' :: (serFields (g :: gs) ++ K))) := by
      show ('"' :: escChars k.toList ++ '"' :: ':' :: ' ' :: serJ v
        ++ ',' :: ' ' :: serFields (g :: gs)) ++ K = _
      simp
    rw [hsh, h1, h2, hsh2, h3, h4]
    cases hKo : lazyCapture K <;> simp [hKo, serFields]
end

theorem lazyCapture_closing (fs : List (String × JVal)) (hcl : cleanFields fs = true)
    (K : List Char) (hK : startsWithL tickRun (skipWs K) = true) :
    lazyCapture (serFields fs ++ '}' :: K) = some (serFields fs ++ ['}']) := by
  have hK1 : startsWithL tickRun (skipWs ('}' :: K)) = false :=
    notCapture_cons K (by decide) (by decide)
  rw [lazyCapture_serFields fs hcl ('}' :: K) hK1]
  have h2 : lazyCapture ('}' :: K) = some ['}'] := by
    rw [lazyCapture]
    simp [hK]
  rw [h2]
  rfl

theorem fenceBody_fence (fs : List (String × JVal)) (hcl : cleanFields fs = true)
    (p2 : List Char) :
    fenceBody ('\n' :: (serJ (.obj fs) ++ ('\n' :: (tickRun ++ p2))))
      = some (serJ (.obj fs)) := by
  have hK : startsWithL tickRun (skipWs ('\n' :: (tickRun ++ p2))) = true := by
    rw [skipWs_cons_ws (by decide)]
    have : skipWs (tickRun ++ p2) = tickRun ++ p2 := by
      show skipWs (tickCh :: (tickCh :: tickCh :: p2)) = _
      exact skipWs_cons_nws (by decide)
    rw [this]
    exact startsWithL_self_append _ _
  have hsh : serJ (.obj fs) ++ ('\n' :: (tickRun ++ p2))
      = '{' :: (serFields fs ++ '}' :: ('\n' :: (tickRun ++ p2))) := by
    show ('{' :: serFields fs ++ ['}']) ++ _ = _
    simp
  unfold fenceBody
  rw [skipWs_cons_ws (by decide), hsh, skipWs_cons_nws (by decide)]
  simp only []
  rw [lazyCapture_closing fs hcl _ hK]
  simp [serJ]

theorem fenceAttempt_fence (tag : Bool) (fs : List (String × JVal))
    (hcl : cleanFields fs = true) (p2 : List Char) :
    fenceAttempt (fenceOpen tag ++ (serJ (.obj fs) ++ ('\n' :: (tickRun ++ p2))))
      = some (serJ (.obj fs)) := by
  cases tag with
  | false =>
    have hsh : fenceOpen false ++ (serJ (.obj fs) ++ ('\n' :: (tickRun ++ p2)))
        = tickCh :: tickCh :: tickCh :: ('\n' :: (serJ (.obj fs) ++ ('\n' :: (tickRun ++ p2)))) := by
      simp [fenceOpen]
    rw [hsh]
    unfold fenceAttempt
    have hst : startsWithL tickRun (tickCh :: tickCh :: tickCh
        :: ('\n' :: (serJ (.obj fs) ++ ('\n' :: (tickRun ++ p2))))) = true := by
      simp [tickRun, startsWithL]
    rw [hst]
    simp only [if_pos rfl, List.drop_succ_cons, List.drop_zero]
    have htag : startsWithL tagJson
        ('\n' :: (serJ (.obj fs) ++ ('\n' :: (tickRun ++ p2)))) = false := by
      simp [tagJson, startsWithL]
    rw [htag]
    simp [fenceBody_fence fs hcl p2]
  | true =>
    have hsh : fenceOpen true ++ (serJ (.obj fs) ++ ('\n' :: (tickRun ++ p2)))
        = tickCh :: tickCh :: tickCh :: ('j' :: 's' :: 'o' :: 'n'
          :: ('\n' :: (serJ (.obj fs) ++ ('\n' :: (tickRun ++ p2))))) := by
      simp [fenceOpen, tagJson]
    rw [hsh]
    unfold fenceAttempt
    have hst : startsWithL tickRun (tickCh :: tickCh :: tickCh :: ('j' :: 's' :: 'o' :: 'n'
        :: ('\n' :: (serJ (.obj fs) ++ ('\n' :: (tickRun ++ p2)))))) = true := by
      simp [tickRun, startsWithL]
    rw [hst]
    simp only [if_pos rfl, List.drop_succ_cons, List.drop_zero]
    have htag : startsWithL tagJson ('j' :: 's' :: 'o' :: 'n'
        :: ('\n' :: (serJ (.obj fs) ++ ('\n' :: (tickRun ++ p2))))) = true := by
      simp [tagJson, startsWithL]
    rw [htag]
    simp [fenceBody_fence fs hcl p2]

theorem findFenced_fence (tag : Bool) (fs : List (String × JVal))
    (hcl : cleanFields fs = true) (p2 : List Char) :
    findFenced (fenceOpen tag ++ (serJ (.obj fs) ++ ('\n' :: (tickRun ++ p2))))
      = some (serJ (.obj fs)) := by
  have hatt := fenceAttempt_fence tag fs hcl p2
  cases tag with
  | false =>
    have hsh : fenceOpen false ++ (serJ (.obj fs) ++ ('\n' :: (tickRun ++ p2)))
        = tickCh :: (tickCh :: tickCh
          :: ('\n' :: (serJ (.obj fs) ++ ('\n' :: (tickRun ++ p2))))) := by
      simp [fenceOpen]
    rw [hsh] at hatt ⊢
    rw [findFenced, hatt]
  | true =>
    have hsh : fenceOpen true ++ (serJ (.obj fs) ++ ('\n' :: (tickRun ++ p2)))
        = tickCh :: (tickCh :: tickCh :: ('j' :: 's' :: 'o' :: 'n'
          :: ('\n' :: (serJ (.obj fs) ++ ('\n' :: (tickRun ++ p2)))))) := by
      simp [fenceOpen, tagJson]
    rw [hsh] at hatt ⊢
    rw [findFenced, hatt]

theorem extractJson_fence (tag : Bool) (fs : List (String × JVal)) (c : Char)
    (t p2 : List Char) (hcl : cleanFields fs = true) (hα : isAsciiAlpha c = true)
    (htick : tickCh ∉ c :: t) :
    extractJson (mkFenceText tag (c :: t) (serJ (.obj fs)) p2) = .ok (.obj fs) := by
  have hload : pyLoads (mkFenceText tag (c :: t) (serJ (.obj fs)) p2) = none := by
    have hshape : mkFenceText tag (c :: t) (serJ (.obj fs)) p2
        = c :: (t ++ fenceOpen tag ++ (serJ (.obj fs) ++ ('\n' :: (tickRun ++ p2)))) := by
      simp [mkFenceText, fenceClose]
    rw [hshape]
    refine pyLoads_prose_none c t (fenceOpen tag) _ hα ?_ '{' ?_ (by decide)
    · cases tag <;> simp [fenceOpen, tagJson]
    · apply List.mem_append_left
      show '{' ∈ serJ (.obj fs)
      have hsj : serJ (.obj fs) = '{' :: (serFields fs ++ ['}']) := rfl
      rw [hsj]
      exact List.mem_cons_self _ _
  have hfence : findFenced (mkFenceText tag (c :: t) (serJ (.obj fs)) p2)
      = some (serJ (.obj fs)) := by
    have hsh2 : mkFenceText tag (c :: t) (serJ (.obj fs)) p2
        = (c :: t) ++ (fenceOpen tag ++ (serJ (.obj fs) ++ ('\n' :: (tickRun ++ p2)))) := by
      simp [mkFenceText, fenceClose]
    rw [hsh2, findFenced_skip _ _ htick, findFenced_fence tag fs hcl p2]
  unfold extractJson
  rw [hload, hfence]
  simp [pyLoads_ser]

theorem mem_skipWs {x : Char} {l : List Char} (h : x ∈ skipWs l) : x ∈ l :=
  (List.dropWhile_sublist isWsChar).subset h

theorem fenceBody_none {s : List Char} (h : '{' ∉ s) : fenceBody s = none := by
  unfold fenceBody
  split
  · next cs heq => exact absurd (mem_skipWs (heq ▸ List.mem_cons_self '{' cs)) h
  · rfl

theorem fenceAttempt_none_noBrace {s : List Char} (h : '{' ∉ s) :
    fenceAttempt s = none := by
  have h3 : '{' ∉ s.drop 3 := fun hm => h (List.drop_subset _ _ hm)
  have h7 : '{' ∉ s.drop 7 := fun hm => h (List.drop_subset _ _ hm)
  unfold fenceAttempt
  by_cases hsw : startsWithL tickRun s = true
  · cases htag : startsWithL tagJson (s.drop 3) <;>
      simp [hsw, htag, fenceBody_none h3, fenceBody_none h7]
  · simp [hsw]

theorem findFenced_none : ∀ {t : List Char}, '{' ∉ t → findFenced t = none := by
  intro t
  induction t with
  | nil => intro _; rfl
  | cons c cs ih =>
    intro h
    have h2 : '{' ∉ cs := fun hm => h (List.mem_cons_of_mem _ hm)
    rw [findFenced, fenceAttempt_none_noBrace h, ih h2]

theorem rawAttempt_none {s : List Char} (h : '{' ∉ s) : rawAttempt s = none := by
  cases s with
  | nil => rfl
  | cons c cs =>
    have hc : c ≠ '{' := fun he => h (he ▸ List.mem_cons_self c cs)
    unfold rawAttempt
    split
    · next cs2 heq =>
      injection heq with h1 h2
      exact absurd h1 hc
    · rfl

theorem findRawObj_none : ∀ {t : List Char}, '{' ∉ t → findRawObj t = none := by
  intro t
  induction t with
  | nil => intro _; rfl
  | cons c cs ih =>
    intro h
    have h2 : '{' ∉ cs := fun hm => h (List.mem_cons_of_mem _ hm)
    rw [findRawObj, rawAttempt_none h, ih h2]

theorem extractJson_unparsable {t : List Char} (hb : '{' ∉ t)
    (hl : pyLoads t = none) :
    extractJson t = .error (.unparsable (t.take 200)) := by
  unfold extractJson
  rw [hl, findFenced_none hb, findRawObj_none hb]

theorem lookupKey_setKey_same (fs : List (String × JVal)) (k : String) (v : JVal) :
    lookupKey (setKey fs k v) k = (lookupKey fs k).map (fun _ => v) := by
  induction fs with
  | nil => rfl
  | cons kv tl ih =>
    obtain ⟨k1, v1⟩ := kv
    have hstep : setKey ((k1, v1) :: tl) k v
        = (if k1 = k then (k1, v) else (k1, v1)) :: setKey tl k v := rfl
    rw [hstep]
    by_cases hk : k1 = k
    · rw [if_pos hk]
      simp [lookupKey, hk]
    · rw [if_neg hk]
      simp [lookupKey, hk, ih]

theorem lookupKey_setKey_other (fs : List (String × JVal)) (k k2 : String) (v : JVal)
    (hne : k2 ≠ k) : lookupKey (setKey fs k v) k2 = lookupKey fs k2 := by
  induction fs with
  | nil => rfl
  | cons kv tl ih =>
    obtain ⟨k1, v1⟩ := kv
    have hstep : setKey ((k1, v1) :: tl) k v
        = (if k1 = k then (k1, v) else (k1, v1)) :: setKey tl k v := rfl
    rw [hstep]
    by_cases hk : k1 = k
    · rw [if_pos hk]
      have hne2 : k1 ≠ k2 := fun he => hne (hk ▸ he).symm
      simp [lookupKey, hne2, ih]
    · rw [if_neg hk]
      simp [lookupKey, ih]

theorem validateReview_missing (m : List (String × JVal))
    (hall : requiredKeys.all (fun k => hasKey m k) = false) :
    validateReview m
      = .error (.schemaMissing (requiredKeys.filter (fun k => !hasKey m k))) := by
  unfold validateReview
  rw [if_neg (by simp [hall])]

theorem validateReview_no_schema_of_all (m : List (String × JVal))
    (hall : requiredKeys.all (fun k => hasKey m k) = true) (ks : List String) :
    validateReview m ≠ .error (.schemaMissing ks) := by
  intro hks
  unfold validateReview at hks
  rw [if_pos hall] at hks
  split at hks <;> (try split at hks) <;> simp_all

theorem intChars_ne_nil (n : Int) : intChars n ≠ [] := by
  unfold intChars
  split_ifs
  · simp
  · exact natChars_ne_nil _

theorem pyReprOf_ne_nil : ∀ v : JVal, pyReprOf v ≠ []
  | .null => by simp [pyReprOf]
  | .bool b => by cases b <;> simp [pyReprOf]
  | .int n => by
    have := intChars_ne_nil n
    simp only [pyReprOf]
    exact this
  | .str s => by simp [pyReprOf]
  | .arr es => by simp [pyReprOf]
  | .obj fs => by simp [pyReprOf]

theorem pyStrOf_ne_empty : ∀ {v : JVal}, v ≠ .str "" → pyStrOf v ≠ "" := by
  intro v hv
  cases v with
  | str s =>
    intro he
    exact hv (by rw [show s = "" from he])
  | null =>
    intro he
    have : pyReprOf JVal.null = [] := by
      have := congrArg String.data he
      simpa using this
    exact pyReprOf_ne_nil _ this
  | bool b =>
    intro he
    have : pyReprOf (JVal.bool b) = [] := by
      have := congrArg String.data he
      simpa using this
    exact pyReprOf_ne_nil _ this
  | int n =>
    intro he
    have : pyReprOf (JVal.int n) = [] := by
      have := congrArg String.data he
      simpa using this
    exact pyReprOf_ne_nil _ this
  | arr es =>
    intro he
    have : pyReprOf (JVal.arr es) = [] := by
      have := congrArg String.data he
      simpa using this
    exact pyReprOf_ne_nil _ this
  | obj fs =>
    intro he
    have : pyReprOf (JVal.obj fs) = [] := by
      have := congrArg String.data he
      simpa using this
    exact pyReprOf_ne_nil _ this

/-- Claim C4: every accepted input yields an integer score clamped into 1..10;
falsy scores become 5, and truthy int-coercible scores are clamped. -/
theorem validateReview_score_clamped (m r : List (String × JVal))
    (h : validateReview m = .ok r) :
    ∃ sc : Int, lookupKey r "score" = some (.int sc) ∧ 1 ≤ sc ∧ sc ≤ 10 ∧
      (pyTruthy (lookupD m "score" .null) = false → sc = 5) ∧
      (∀ n : Int, pyTruthy (lookupD m "score" .null) = true →
        pyIntOf (lookupD m "score" .null) = some n → sc = max 1 (min 10 n)) := by
  unfold validateReview at h
  by_cases hall : requiredKeys.all (fun k => hasKey m k) = true
  · rw [if_pos hall] at h
    split at h
    · simp at h
    · split at h
      · simp at h
      · next sug hsug sc hsc =>
        injection h with hr
        refine ⟨max 1 (min 10 sc), ?_, le_max_left _ _,
          max_le (by norm_num) (min_le_left _ _), ?_, ?_⟩
        · rw [← hr, lookupKey_setKey_same]
          rw [lookupKey_setKey_other _ _ _ _ (by decide),
            lookupKey_setKey_other _ _ _ _ (by decide)]
          have hsck : hasKey m "score" = true := by
            simp [requiredKeys] at hall
            exact hall.2.2
          obtain ⟨x, hx⟩ := Option.isSome_iff_exists.mp hsck
          rw [hx]
          rfl
        · intro hf
          rw [if_neg (by simp [hf])] at hsc
          injection hsc with h5
          rw [← h5]
          decide
        · intro n ht hn
          rw [if_pos ht, hn] at hsc
          injection hsc with h5
          rw [h5]
  · rw [if_neg hall] at h
    simp at h

/-- Claim C4 witness at a concrete over-large score. -/
theorem validateReview_score_clamped_w :
    ∃ sc : Int,
      lookupKey [("review", JVal.str "ok"), ("suggestions", JVal.arr []),
        ("score", JVal.int 10)] "score" = some (.int sc) ∧ 1 ≤ sc ∧ sc ≤ 10 ∧
      (pyTruthy (lookupD [("review", JVal.str "ok"), ("suggestions", JVal.arr []),
        ("score", JVal.int 99)] "score" .null) = false → sc = 5) ∧
      (∀ n : Int, pyTruthy (lookupD [("review", JVal.str "ok"), ("suggestions", JVal.arr []),
          ("score", JVal.int 99)] "score" .null) = true →
        pyIntOf (lookupD [("review", JVal.str "ok"), ("suggestions", JVal.arr []),
          ("score", JVal.int 99)] "score" .null) = some n → sc = max 1 (min 10 n)) :=
  validateReview_score_clamped
    [("review", JVal.str "ok"), ("suggestions", JVal.arr []), ("score", JVal.int 99)]
    [("review", JVal.str "ok"), ("suggestions", JVal.arr []), ("score", JVal.int 10)]
    rfl

/-- Claim C3 (amended): past the presence check, normalization succeeds
whenever the truthy suggestions value is iterable (list, string or dict)
and the truthy score value is int-coercible (bool, int, or integer string). -/
theorem validateReview_total (m : List (String × JVal))
    (hall : requiredKeys.all (fun k => hasKey m k) = true)
    (hsug : pyTruthy (lookupD m "suggestions" .null) = false
      ∨ (pyListOf (lookupD m "suggestions" .null)).isSome = true)
    (hsc : pyTruthy (lookupD m "score" .null) = false
      ∨ (pyIntOf (lookupD m "score" .null)).isSome = true) :
    ∃ r, validateReview m = .ok r := by
  unfold validateReview
  rw [if_pos hall]
  have h1 : (if pyTruthy (lookupD m "suggestions" JVal.null)
      then pyListOf (lookupD m "suggestions" JVal.null) else some []).isSome = true := by
    rcases hsug with hf | hs
    · rw [if_neg (by simp [hf])]
      rfl
    · by_cases ht : pyTruthy (lookupD m "suggestions" JVal.null) = true
      · rw [if_pos ht]
        exact hs
      · rw [if_neg ht]
        rfl
  obtain ⟨sug, hsugeq⟩ := Option.isSome_iff_exists.mp h1
  rw [hsugeq]
  have h2 : (if pyTruthy (lookupD m "score" JVal.null)
      then pyIntOf (lookupD m "score" JVal.null) else some 5).isSome = true := by
    rcases hsc with hf | hs
    · rw [if_neg (by simp [hf])]
      rfl
    · by_cases ht : pyTruthy (lookupD m "score" JVal.null) = true
      · rw [if_pos ht]
        exact hs
      · rw [if_neg ht]
        rfl
  obtain ⟨sc, hsceq⟩ := Option.isSome_iff_exists.mp h2
  rw [hsceq]
  exact ⟨_, rfl⟩

/-- Claim C3 witness: string-typed suggestions and score values succeed. -/
theorem validateReview_total_w :
    ∃ r, validateReview [("review", JVal.null), ("suggestions", JVal.str "ab"),
      ("score", JVal.str " 12 ")] = .ok r :=
  validateReview_total _ (by decide) (Or.inr (by decide)) (Or.inr (by decide))

/-- Claim C3 counterexample: a truthy non-iterable suggestions value makes
normalization raise `TypeError` past the presence check. -/
theorem validateReview_raises_cx :
    validateReview [("review", JVal.str "ok"), ("suggestions", JVal.int 1),
      ("score", JVal.int 5)] = .error .notIterable := rfl

/-- Claim C7: the validator fails with the missing-keys `ValueError` exactly
when a required key is absent, and a missing score triggers it before any
normalization is attempted. -/
theorem validateReview_schema (m : List (String × JVal)) :
    ((∃ ks, validateReview m = .error (.schemaMissing ks)) ↔
      (hasKey m "review" = false ∨ hasKey m "suggestions" = false
        ∨ hasKey m "score" = false)) ∧
    (hasKey m "score" = false →
      validateReview m
        = .error (.schemaMissing (requiredKeys.filter (fun k => !hasKey m k)))) := by
  constructor
  · constructor
    · rintro ⟨ks, hks⟩
      by_cases hall : requiredKeys.all (fun k => hasKey m k) = true
      · exact absurd hks (validateReview_no_schema_of_all m hall ks)
      · cases h1 : hasKey m "review" <;> cases h2 : hasKey m "suggestions" <;>
          cases h3 : hasKey m "score" <;> simp_all [requiredKeys]
    · intro hor
      have hall : requiredKeys.all (fun k => hasKey m k) = false := by
        rcases hor with h | h | h <;> simp [requiredKeys, h]
      exact ⟨_, validateReview_missing m hall⟩
  · intro hsc
    apply validateReview_missing
    simp [requiredKeys, hsc]

/-- Claim C7 witness: an object missing `score`. -/
theorem validateReview_schema_w :
    validateReview [("review", JVal.null), ("suggestions", JVal.arr [])]
      = .error (.schemaMissing ["score"]) :=
  (validateReview_schema _).2 rfl

/-- Claim C2 (amended): the suggestions-only loop coerces each element to a
Suggestion — objects field-by-field with string coercion and defaults
`medium` / `maintainability`, bare elements via their string form — and the
resulting severity and category are non-empty unless the input object held
an explicitly empty string there; `validateReview` itself leaves elements
unnormalized (see the counterexample). -/
theorem suggestions_normalized (l : List JVal) (e : JVal) (he : e ∈ l)
    (hsev : ∀ m, e = JVal.obj m → lookupKey m "severity" ≠ some (.str ""))
    (hcat : ∀ m, e = JVal.obj m → lookupKey m "category" ≠ some (.str "")) :
    structureSuggestion e ∈ structuredSuggestions l ∧
    (structureSuggestion e).severity ≠ "" ∧
    (structureSuggestion e).category ≠ "" ∧
    (∀ m, e = JVal.obj m → structureSuggestion e =
      { text := pyStrOf (lookupD m "text" (.obj m)),
        severity := pyStrOf (lookupD m "severity" (.str "medium")),
        category := pyStrOf (lookupD m "category" (.str "maintainability")) }) ∧
    (∀ m, e = JVal.obj m → lookupKey m "severity" = none →
      (structureSuggestion e).severity = "medium") ∧
    (∀ m, e = JVal.obj m → lookupKey m "category" = none →
      (structureSuggestion e).category = "maintainability") ∧
    ((∀ m, e ≠ JVal.obj m) → structureSuggestion e =
      { text := pyStrOf e, severity := "medium", category := "maintainability" }) := by
  refine ⟨List.mem_map_of_mem _ he, ?_, ?_, ?_, ?_, ?_, ?_⟩
  · cases e with
    | obj m =>
      cases hl : lookupKey m "severity" with
      | none => simp [structureSuggestion, lookupD, hl, pyStrOf]
      | some v =>
        have hv : v ≠ .str "" := fun hbad => hsev m rfl (hbad ▸ hl)
        simpa [structureSuggestion, lookupD, hl] using pyStrOf_ne_empty hv
    | null => simp [structureSuggestion]
    | bool b => simp [structureSuggestion]
    | int n => simp [structureSuggestion]
    | str s => simp [structureSuggestion]
    | arr es => simp [structureSuggestion]
  · cases e with
    | obj m =>
      cases hl : lookupKey m "category" with
      | none => simp [structureSuggestion, lookupD, hl, pyStrOf]
      | some v =>
        have hv : v ≠ .str "" := fun hbad => hcat m rfl (hbad ▸ hl)
        simpa [structureSuggestion, lookupD, hl] using pyStrOf_ne_empty hv
    | null => simp [structureSuggestion]
    | bool b => simp [structureSuggestion]
    | int n => simp [structureSuggestion]
    | str s => simp [structureSuggestion]
    | arr es => simp [structureSuggestion]
  · intro m hm
    subst hm
    rfl
  · intro m hm hnone
    subst hm
    simp [structureSuggestion, lookupD, hnone, pyStrOf]
  · intro m hm hnone
    subst hm
    simp [structureSuggestion, lookupD, hnone, pyStrOf]
  · intro hno
    cases e with
    | obj m => exact absurd rfl (hno m)
    | null => rfl
    | bool b => rfl
    | int n => rfl
    | str s => rfl
    | arr es => rfl

/-- Claim C2 witness: a one-element list with an object carrying only text. -/
theorem suggestions_normalized_w :
    (structureSuggestion (.obj [("text", JVal.str "use types")])).severity = "medium" ∧
    (structureSuggestion (.obj [("text", JVal.str "use types")])).severity ≠ "" ∧
    (structureSuggestion (.obj [("text", JVal.str "use types")])).category ≠ "" := by
  have h := suggestions_normalized [.obj [("text", JVal.str "use types")]]
    (.obj [("text", JVal.str "use types")]) (by simp)
    (by intro m hm; injection hm with h2; subst h2; simp [lookupKey])
    (by intro m hm; injection hm with h2; subst h2; simp [lookupKey])
  exact ⟨h.2.2.2.2.1 _ rfl rfl, h.2.1, h.2.2.1⟩

/-- Claim C2 counterexample: `validateReview` passes a bare-string
suggestion element through untouched — the normalized output keeps
`"fix"` as a plain string, not a Suggestion object with severity and
category. -/
theorem validateReview_no_element_coercion_cx :
    validateReview [("review", JVal.str "ok"), ("suggestions", JVal.arr [JVal.str "fix"]),
      ("score", JVal.int 3)]
      = .ok [("review", JVal.str "ok"), ("suggestions", JVal.arr [JVal.str "fix"]),
          ("score", JVal.int 3)] := rfl

/-- Claim C10: an object suggestion without a `text` field falls back to the
string rendering (repr) of the whole element, which is never empty. -/
theorem suggestion_text_repr (m : List (String × JVal))
    (h : lookupKey m "text" = none) :
    (structureSuggestion (.obj m)).text = String.mk (pyReprOf (.obj m)) ∧
    (structureSuggestion (.obj m)).text ≠ "" ∧
    pyStrOf (.obj m) = String.mk (pyReprOf (.obj m)) := by
  have ht : (structureSuggestion (.obj m)).text = pyStrOf (.obj m) := by
    simp [structureSuggestion, lookupD, h]
  have hrepr : pyStrOf (.obj m) = String.mk (pyReprOf (.obj m)) := by
    simp [pyStrOf]
  refine ⟨by rw [ht, hrepr], ?_, hrepr⟩
  rw [ht]
  exact pyStrOf_ne_empty (fun hh => JVal.noConfusion hh)

/-- Claim C10 witness. -/
theorem suggestion_text_repr_w :
    (structureSuggestion (.obj [("severity", JVal.str "high")])).text
      = String.mk (pyReprOf (.obj [("severity", JVal.str "high")])) ∧
    (structureSuggestion (.obj [("severity", JVal.str "high")])).text ≠ "" ∧
    pyStrOf (.obj [("severity", JVal.str "high")])
      = String.mk (pyReprOf (.obj [("severity", JVal.str "high")])) :=
  suggestion_text_repr _ rfl

/-- Claim C9: the complexity heuristic always scores within 1..10, and the
two-function one-level-nested snippet reports two functions and depth at
least one. -/
theorem complexity_bounds_snippet :
    (∀ code : List Char, 1 ≤ (analyzeComplexity code).complexityScore ∧
      (analyzeComplexity code).complexityScore ≤ 10) ∧
    (analyzeComplexity ("def f(x):\n    return x\ndef g(y):\n    return y".toList)).functions
      = 2 ∧
    1 ≤ (analyzeComplexity
      ("def f(x):\n    return x\ndef g(y):\n    return y".toList)).maxNestingDepth := by
  refine ⟨?_, by decide, by decide⟩
  intro code
  dsimp only [analyzeComplexity]
  omega

/-- Claim C1 (code-bug evidence): every provider exception family member
reaching `review_code` has already been wrapped into a `ValueError` by
`get_code_review`, so the endpoint answers 500 for all of them — while the
boundary's own `except` chain would map the raw exceptions to
401 / 429 / 503 / 502. -/
theorem review_provider_faults_500 :
    reviewEndpoint true (.raise .authErr) = .error 500 ∧
    reviewEndpoint true (.raise .rateErr) = .error 500 ∧
    reviewEndpoint true (.raise .connErr) = .error 500 ∧
    reviewEndpoint true (.raise .apiErr) = .error 500 ∧
    reviewEndpoint true (.raise .badReqErr) = .error 500 ∧
    reviewStatus .authErr = 401 ∧ reviewStatus .rateErr = 429 ∧
    reviewStatus .connErr = 503 ∧ reviewStatus .apiErr = 502 :=
  ⟨rfl, rfl, rfl, rfl, rfl, rfl, rfl, rfl, rfl⟩

/-- Claim C8: with no credentials configured both operations return their
fixed payloads — independent of anything the provider call would do, i.e.
no network call is consulted — with review score 7, a two-item review
suggestion list, and a fixed three-item suggestions list. -/
theorem mock_mode_deterministic (o1 o2 : ProviderOutcome) :
    getCodeReview false o1 = .ok mockReviewPayload ∧
    getCodeReview false o1 = getCodeReview false o2 ∧
    lookupKey mockReviewPayload "review"
      = some (.str "Mock review: Code looks good! (API not configured)") ∧
    lookupKey mockReviewPayload "score" = some (.int 7) ∧
    (∃ es, lookupKey mockReviewPayload "suggestions" = some (.arr es)
      ∧ es.length = 2) ∧
    getCodeSuggestions false o1 = .ok mockSuggestions ∧
    getCodeSuggestions false o1 = getCodeSuggestions false o2 ∧
    mockSuggestions.length = 3 :=
  ⟨rfl, rfl, rfl, rfl, ⟨_, rfl, rfl⟩, rfl, rfl, rfl⟩

/-- Claim C5 (amended): extract recovers any serialized value directly, and
recovers any fence-embedded object whose strings and keys avoid braces and
backticks, given leading prose that starts with a letter and contains no
backticks; O with brace-or-backtick-bearing strings can fail (see the
counterexample). -/
theorem extractor_roundtrip_fence :
    (∀ v : JVal, extractJson (serJ v) = .ok v) ∧
    (∀ (tag : Bool) (fs : List (String × JVal)) (c : Char) (t p2 : List Char),
      cleanFields fs = true → isAsciiAlpha c = true → tickCh ∉ c :: t →
      extractJson (mkFenceText tag (c :: t) (serJ (.obj fs)) p2) = .ok (.obj fs)) := by
  constructor
  · intro v
    unfold extractJson
    rw [pyLoads_ser v]
  · exact fun tag fs c t p2 hcl hα htick => extractJson_fence tag fs c t p2 hcl hα htick

/-- Claim C5 witness: a tagged fence with prose on both sides. -/
theorem extractor_roundtrip_fence_w :
    extractJson (mkFenceText true ("Here is the JSON: ".toList)
      (serJ (.obj [("a", JVal.int 1)])) (" Thanks.".toList))
      = .ok (.obj [("a", JVal.int 1)]) :=
  extractor_roundtrip_fence.2 true [("a", JVal.int 1)] 'H'
    ("ere is the JSON: ".toList) (" Thanks.".toList) (by decide) (by decide) (by decide)

/-- Claim C5 counterexample: an object whose string value contains a brace
and backticks is truncated by the lazy fence regex, so `json.loads` raises
a `JSONDecodeError` instead of recovering the object. -/
theorem extract_fence_truncation_cx :
    extractJson (mkFenceText true ("Note: here\n".toList)
      (serJ (.obj [("a", JVal.str "\x7d \x60\x60\x60")])) ("\nDone.".toList))
      = .error .decodeFail := rfl

/-- Claim C6 (amended): a brace-free text that is not itself valid JSON
fails with the `ValueError` carrying at most 200 characters of the text;
brace-free valid JSON instead parses (see the counterexample). -/
theorem extract_no_brace_unparsable (t : List Char)
    (hb : '{' ∉ t) (hl : pyLoads t = none) :
    extractJson t = .error (.unparsable (t.take 200)) ∧
    (t.take 200).length ≤ 200 ∧
    (∀ v, extractJson t ≠ .ok v) := by
  have h := extractJson_unparsable hb hl
  refine ⟨h, ?_, ?_⟩
  · simp
  · intro v hv
    rw [h] at hv
    cases hv

/-- Claim C6 witness. -/
theorem extract_no_brace_unparsable_w :
    extractJson ("hello no json here".toList)
      = .error (.unparsable (("hello no json here".toList).take 200)) ∧
    (("hello no json here".toList).take 200).length ≤ 200 ∧
    (∀ v, extractJson ("hello no json here".toList) ≠ .ok v) :=
  extract_no_brace_unparsable _ (by decide) rfl

/-- Claim C6 counterexample: `"42"` contains no braces yet parses, and it
yields a non-object JSON value rather than the documented failure. -/
theorem extract_nonobject_cx :
    extractJson ("42".toList) = .ok (.int 42) ∧ '{' ∉ "42".toList :=
  ⟨rfl, by decide⟩
